import Mathlib

/-!
Verification of the extraction / merge / reinsertion engine of
`src/lib/element.py` (Ebook-Translator-Calibre-Plugin).

Python strings are shallowly embedded as `List Char` (`Str`), so that every
operation of the source (slicing, `split`, `strip`, concatenation, `len`)
has a transparent, executable counterpart.  Functions of the repository that
are not under `src/` (`utils.trim`, `utils.uid`, the engine-class placeholder
templates, calibre's `prepare_string_for_xml`) are modelled from the spec and
carry a doc comment saying so; `uid` is kept as an explicit function
parameter `u` because no claim depends on the hash internals, only on the
string it is applied to.
-/

namespace EbookTranslator

/-- Python strings are modelled as lists of characters. -/
abbrev Str := List Char

/-- Embed a Lean string literal as a character list. -/
def str (s : String) : Str := s.data

/-- Modelled from the spec: `utils.trim` is not under `src/`; spec §4.1
describes content extraction as "leading/trailing whitespace trimmed"
(Python `str.strip`).  `Char.isWhitespace` covers the ASCII whitespace
characters that occur in any claim. -/
def pyStrip (s : Str) : Str :=
  ((s.dropWhile Char.isWhitespace).reverse.dropWhile Char.isWhitespace).reverse

/-- Core of Python `s.split(sep)`: scans left to right; the `Nat` state is
the number of characters of an already-matched separator still to be
consumed.  Structural recursion on the string keeps the model executable by
the kernel. -/
def splitCore (sep : Str) : Str → Nat → List Str
  | [], _ => [[]]
  | _ :: rest, k + 1 => splitCore sep rest k
  | c :: rest, 0 =>
    if sep.isPrefixOf (c :: rest) && !sep.isEmpty then
      [] :: splitCore sep rest (sep.length - 1)
    else
      match splitCore sep rest 0 with
      | [] => [[c]]
      | h :: t => (c :: h) :: t

/-- Python `s.split(sep)` (non-overlapping, leftmost, keeps empty pieces).
For `sep = []` Python raises; the model returns `[s]`, a case no caller of
the source exercises. -/
def splitOnL (sep s : Str) : List Str := splitCore sep s 0

/-- Python `sep.flatten(xs)`. -/
def joinSep (sep : Str) : List Str → Str
  | [] => []
  | [x] => x
  | x :: y :: xs => x ++ sep ++ joinSep sep (y :: xs)

/-- Core of the regular expression `re.sub('%s+' % sep, sep, s)` used by
`align_paragraph` (src/lib/element.py lines 537–538): the `+` binds to the
final character `c` of `sep`, so the pattern is `sep` followed by a greedy
run of extra copies of `c`, all replaced by `sep` itself.  (The separators
the plugin uses contain no other regex metacharacters.)  The `Nat` state
counts separator characters still to be consumed; the `Bool` state records
whether a greedy run of `c` is being absorbed. -/
def subSepCore (sep : Str) (c : Char) : Str → Nat → Bool → Str
  | [], _, _ => []
  | _ :: rest, k + 1, b => subSepCore sep c rest k b
  | x :: rest, 0, true =>
    if x = c then subSepCore sep c rest 0 true
    else
      if sep.isPrefixOf (x :: rest) && !sep.isEmpty then
        sep ++ subSepCore sep c rest (sep.length - 1) true
      else x :: subSepCore sep c rest 0 false
  | x :: rest, 0, false =>
    if sep.isPrefixOf (x :: rest) && !sep.isEmpty then
      sep ++ subSepCore sep c rest (sep.length - 1) true
    else x :: subSepCore sep c rest 0 false

def subSepPlus (sep : Str) (s : Str) : Str :=
  match sep.getLast? with
  | none => s
  | some c => subSepCore sep c s 0 false

/-- Reinsertion positions (`translation_position`, already normalized:
`before ↦ above`, `after ↦ below` by `get_element_handler`). -/
inductive Position where
  | above
  | below
  | left
  | right
  | only
deriving DecidableEq

/-- The literal `'\n\n'` used by `align_paragraph` to join surplus or
deficit translated segments. -/
def nl2 : Str := str "\n\n"

/-- Python `split` never returns an empty list of pieces. -/
theorem splitCore_ne_nil (sep : Str) (s : Str) :
    ∀ k : Nat, splitCore sep s k ≠ [] := by
  induction s with
  | nil =>
    intro k
    rw [splitCore]
    exact fun h => List.noConfusion h
  | cons c rest ih =>
    intro k
    cases k with
    | succ k =>
      rw [splitCore]
      exact ih k
    | zero =>
      rw [splitCore]
      by_cases hc : (sep.isPrefixOf (c :: rest) && !sep.isEmpty) = true
      · rw [if_pos hc]
        exact fun h => List.noConfusion h
      · rw [if_neg hc]
        rcases hsp : splitCore sep rest 0 with _ | ⟨h', t'⟩
        · simp [hsp]
        · simp [hsp]

/-- `originals = paragraph.original.strip().split(self.separator)`
(src/lib/element.py line 534). -/
def alignOriginals (sep o : Str) : List Str := splitOnL sep (pyStrip o)

/-- There is always at least one original segment (`m ≥ 1`). -/
theorem alignOriginals_length_pos (sep o : Str) :
    1 ≤ (alignOriginals sep o).length :=
  List.length_pos.mpr (splitCore_ne_nil sep (pyStrip o) 0)

/-- `translations = pattern.sub(separator, paragraph.translation).strip().split(separator)`
(src/lib/element.py lines 537–539). -/
def alignTranslations (sep t : Str) : List Str :=
  splitOnL sep (pyStrip (subSepPlus sep t))

/-- `ElementHandlerMerge.align_paragraph` (src/lib/element.py lines 533–556).

The placeholder-compatibility rewrite of lines 524–532 (taken only when the
original does not end with the separator) substitutes placeholder tokens —
whose templates live on the external engine classes, outside `src/` — by the
separator; it is the identity on strings containing no placeholder token,
and only rewrites the two strings before they are split, so the function is
modelled from the point where both branches converge.  The three-way branch
on `offset = len(originals) - len(translations)` is rendered as nested
conditionals on the two lengths. -/
def align_paragraph (pos : Position) (sep : Str) (original : Str) :
    Option Str → List (Str × Option Str)
  | none => (alignOriginals sep original).map (fun o => (o, none))
  | some tr =>
    if (alignTranslations sep tr).length < (alignOriginals sep original).length then
      if pos = Position.left ∨ pos = Position.right then
        (alignOriginals sep original).zip
          ((alignTranslations sep tr).map some
            ++ List.replicate ((alignOriginals sep original).length
                - (alignTranslations sep tr).length) none)
      else if pos = Position.above then
        (alignOriginals sep original).zip
          (some (joinSep nl2 (alignTranslations sep tr))
            :: List.replicate ((alignOriginals sep original).length - 1) none)
      else
        (alignOriginals sep original).zip
          (List.replicate ((alignOriginals sep original).length - 1) none
            ++ [some (joinSep nl2 (alignTranslations sep tr))])
    else if (alignOriginals sep original).length < (alignTranslations sep tr).length then
      (alignOriginals sep original).zip
        (((alignTranslations sep tr).take
            ((alignOriginals sep original).length - 1)).map some
          ++ [some (joinSep nl2 ((alignTranslations sep tr).drop
              ((alignOriginals sep original).length - 1)))])
    else
      (alignOriginals sep original).zip ((alignTranslations sep tr).map some)

/-- Claim C1: for a merged paragraph with original-segment-count `m` and
translated-segment-count `n` (translation present), `align_paragraph`
returns exactly `m` pairs, the first components being exactly the original
segments in order; when `n < m` it pads with `none` at the end for the
left/right positions, and otherwise joins all translated segments with
double newlines into one block given to the first original segment for
position `above` and to the last one otherwise, every other original
segment receiving `none`; when `n > m` the first `m − 1` segments are
paired positionally and the surplus is folded, double-newline-joined, into
the final original segment. -/
theorem C1_alignment_coverage (pos : Position) (sep : Str) (o t : Str) :
    (align_paragraph pos sep o (some t)).map Prod.fst = alignOriginals sep o
    ∧ (align_paragraph pos sep o (some t)).length
        = (alignOriginals sep o).length
    ∧ ((alignTranslations sep t).length < (alignOriginals sep o).length →
        (pos = Position.left ∨ pos = Position.right) →
        align_paragraph pos sep o (some t)
          = (alignOriginals sep o).zip
              ((alignTranslations sep t).map some
                ++ List.replicate ((alignOriginals sep o).length
                    - (alignTranslations sep t).length) none))
    ∧ ((alignTranslations sep t).length < (alignOriginals sep o).length →
        ¬(pos = Position.left ∨ pos = Position.right) → pos = Position.above →
        align_paragraph pos sep o (some t)
          = (alignOriginals sep o).zip
              (some (joinSep nl2 (alignTranslations sep t))
                :: List.replicate ((alignOriginals sep o).length - 1) none))
    ∧ ((alignTranslations sep t).length < (alignOriginals sep o).length →
        ¬(pos = Position.left ∨ pos = Position.right) → pos ≠ Position.above →
        align_paragraph pos sep o (some t)
          = (alignOriginals sep o).zip
              (List.replicate ((alignOriginals sep o).length - 1) none
                ++ [some (joinSep nl2 (alignTranslations sep t))]))
    ∧ ((alignOriginals sep o).length < (alignTranslations sep t).length →
        align_paragraph pos sep o (some t)
          = (alignOriginals sep o).zip
              (((alignTranslations sep t).take
                  ((alignOriginals sep o).length - 1)).map some
                ++ [some (joinSep nl2 ((alignTranslations sep t).drop
                    ((alignOriginals sep o).length - 1)))])) := by
  have hlen : ∀ l2 : List (Option Str),
      l2.length = (alignOriginals sep o).length →
      ((alignOriginals sep o).zip l2).map Prod.fst = alignOriginals sep o
        ∧ ((alignOriginals sep o).zip l2).length = (alignOriginals sep o).length := by
    intro l2 h2
    exact ⟨List.map_fst_zip _ l2 (by omega),
      by rw [List.length_zip, h2, min_self]⟩
  refine ⟨?_, ?_, ?_, ?_, ?_, ?_⟩
  · simp only [align_paragraph]
    by_cases h1 : (alignTranslations sep t).length < (alignOriginals sep o).length
    · rw [if_pos h1]
      by_cases h2 : pos = Position.left ∨ pos = Position.right
      · rw [if_pos h2]
        refine (hlen _ ?_).1
        simp only [List.length_append, List.length_map, List.length_replicate]
        omega
      · rw [if_neg h2]
        by_cases h3 : pos = Position.above
        · rw [if_pos h3]
          refine (hlen _ ?_).1
          simp only [List.length_cons, List.length_replicate]
          omega
        · rw [if_neg h3]
          refine (hlen _ ?_).1
          simp only [List.length_append, List.length_replicate,
            List.length_cons, List.length_nil]
          omega
    · rw [if_neg h1]
      by_cases h4 : (alignOriginals sep o).length < (alignTranslations sep t).length
      · rw [if_pos h4]
        refine (hlen _ ?_).1
        have hpos := alignOriginals_length_pos sep o
        simp only [List.length_append, List.length_map, List.length_take,
          List.length_cons, List.length_nil]
        omega
      · rw [if_neg h4]
        refine (hlen _ ?_).1
        simp only [List.length_map]
        omega
  · simp only [align_paragraph]
    by_cases h1 : (alignTranslations sep t).length < (alignOriginals sep o).length
    · rw [if_pos h1]
      by_cases h2 : pos = Position.left ∨ pos = Position.right
      · rw [if_pos h2]
        refine (hlen _ ?_).2
        simp only [List.length_append, List.length_map, List.length_replicate]
        omega
      · rw [if_neg h2]
        by_cases h3 : pos = Position.above
        · rw [if_pos h3]
          refine (hlen _ ?_).2
          simp only [List.length_cons, List.length_replicate]
          omega
        · rw [if_neg h3]
          refine (hlen _ ?_).2
          simp only [List.length_append, List.length_replicate,
            List.length_cons, List.length_nil]
          omega
    · rw [if_neg h1]
      by_cases h4 : (alignOriginals sep o).length < (alignTranslations sep t).length
      · rw [if_pos h4]
        refine (hlen _ ?_).2
        have hpos := alignOriginals_length_pos sep o
        simp only [List.length_append, List.length_map, List.length_take,
          List.length_cons, List.length_nil]
        omega
      · rw [if_neg h4]
        refine (hlen _ ?_).2
        simp only [List.length_map]
        omega
  · intro h1 h2
    simp only [align_paragraph]
    rw [if_pos h1, if_pos h2]
  · intro h1 h2 h3
    simp only [align_paragraph]
    rw [if_pos h1, if_neg h2, if_pos h3]
  · intro h1 h2 h3
    simp only [align_paragraph]
    rw [if_pos h1, if_neg h2, if_neg h3]
  · intro h4
    simp only [align_paragraph]
    rw [if_neg (by omega), if_pos h4]

/-- Witness for C1 at a concrete input: `m = 2` originals, `n = 3`
translations, position `below`: the surplus is folded into the final pair. -/
theorem C1_alignment_coverage_witness :
    (alignOriginals nl2 (str "a\n\nb")).length
        < (alignTranslations nl2 (str "x\n\ny\n\nz")).length
    ∧ align_paragraph Position.below nl2 (str "a\n\nb")
        (some (str "x\n\ny\n\nz"))
      = [(str "a", some (str "x")), (str "b", some (str "y\n\nz"))] := by
  refine ⟨by decide, ?_⟩
  have h := (C1_alignment_coverage Position.below nl2 (str "a\n\nb")
    (str "x\n\ny\n\nz")).2.2.2.2.2 (by decide)
  rw [h]
  decide

/-- Claim C10: for a merged paragraph record whose translation field is
`None`, `align_paragraph` pairs every original segment with `none` — one
pair per original segment, no fabricated translation text (the model is a
total function, so no exception can be raised). -/
theorem C10_align_none (pos : Position) (sep : Str) (o : Str) :
    align_paragraph pos sep o none
      = (alignOriginals sep o).map (fun s => (s, none))
    ∧ (align_paragraph pos sep o none).length = (alignOriginals sep o).length
    ∧ (align_paragraph pos sep o none).map Prod.snd
      = List.replicate (alignOriginals sep o).length (none : Option Str) := by
  refine ⟨rfl, ?_, ?_⟩
  · show ((alignOriginals sep o).map (fun s => (s, none))).length = _
    rw [List.length_map]
  · show ((alignOriginals sep o).map
      (fun s => (s, (none : Option Str)))).map Prod.snd = _
    rw [List.map_map]
    induction alignOriginals sep o with
    | nil => rfl
    | cons x xs ih => simp [List.replicate_succ, ih]

/-!  ## Element handlers

The handlers only interact with an element through `get_raw`,
`get_content`, `ignored`, `get_attributes`, `page_id` and
`add_translation`, so an element is embedded as the record of those
observations. -/

/-- An extracted unit as seen by the handlers. -/
structure PElem where
  raw : Str
  content : Str
  ignored : Bool
  attrs : Option Str
  pageId : Option Str
deriving DecidableEq

/-- The string `'%s%s' % (oid, content)` hashed by `utils.uid` (the hash
itself lives outside `src/` and is kept as the explicit parameter `u` of
the handler models). -/
def uidInput (oid : Nat) (txt : Str) : Str := str (toString oid) ++ txt

/-- A record appended to `self.originals` by
`ElementHandlerMerge.prepare_original` (src/lib/element.py lines 514–520):
`(oid, md5, raw, txt, False)`. -/
structure MergedOriginal where
  oid : Nat
  md5 : Str
  raw : Str
  txt : Str
  ignored : Bool
deriving DecidableEq

/-- Loop state of `ElementHandlerMerge.prepare_original`: the accumulated
raw markup, the accumulated text, the next batch index, and the records
flushed so far. -/
structure MergeState where
  raw : Str
  txt : Str
  oid : Nat
  originals : List MergedOriginal
deriving DecidableEq

/-- One iteration of the loop of `ElementHandlerMerge.prepare_original`
(src/lib/element.py lines 499–518).  Ignored elements contribute nothing;
otherwise `content = element.get_content() + separator` is appended to the
running batch when `len(txt + content) < merge_length`, and the current
batch (if non-empty) is flushed and restarted otherwise. -/
def mergeStep (u : Str → Str) (sep : Str) (L : Nat)
    (st : MergeState) (e : PElem) : MergeState :=
  if e.ignored then st
  else
    if (st.txt ++ (e.content ++ sep)).length < L then
      { st with raw := st.raw ++ e.raw ++ sep, txt := st.txt ++ (e.content ++ sep) }
    else if st.txt ≠ [] then
      { raw := e.raw, txt := e.content ++ sep, oid := st.oid + 1,
        originals := st.originals
          ++ [⟨st.oid, u (uidInput st.oid st.txt), st.raw, st.txt, false⟩] }
    else
      { st with raw := e.raw, txt := e.content ++ sep }

/-- The unconditional final flush `txt and self.originals.append(...)`
(src/lib/element.py lines 519–520). -/
def mergeFinish (u : Str → Str) (st : MergeState) : List MergedOriginal :=
  if st.txt ≠ [] then
    st.originals ++ [⟨st.oid, u (uidInput st.oid st.txt), st.raw, st.txt, false⟩]
  else st.originals

/-- `ElementHandlerMerge.prepare_original` (src/lib/element.py lines
495–521), restricted to the `originals` it returns. -/
def merge_prepare_original (u : Str → Str) (sep : Str) (L : Nat)
    (es : List PElem) : List MergedOriginal :=
  mergeFinish u (es.foldl (mergeStep u sep L) ⟨[], [], 0, []⟩)

/-- `self.elements[eid] = element` for every element, ignored or not
(src/lib/element.py line 500): the merge handler registers all elements. -/
def merge_elements_map (es : List PElem) : List (Nat × PElem) := es.enum

/-- Claim C2 counterexample: a single short element.  Its batch raw field is
`"A\n\n"` (the appending branch adds `code + separator`), so joining the
batch raw fields with the separator gives `"A\n\n"` while joining the
elements' raw markup gives `"A"`: the concatenation invariant fails. -/
theorem C2_raw_concat_counterexample :
    joinSep (str "\n\n")
        ((merge_prepare_original id (str "\n\n") 50
            [⟨str "A", str "A", false, none, none⟩]).map MergedOriginal.raw)
      ≠ joinSep (str "\n\n")
          ([(⟨str "A", str "A", false, none, none⟩ : PElem)].map PElem.raw) := by
  decide

/-- Invariant of the merge loop: the concatenation of the flushed batch
texts followed by the running text equals the prior state's contribution
plus `content + separator` for every non-ignored element processed. -/
theorem mergeFold_txt_invariant (u : Str → Str) (sep : Str) (L : Nat)
    (es : List PElem) : ∀ st : MergeState,
    (((es.foldl (mergeStep u sep L) st).originals.map MergedOriginal.txt).flatten
        ++ (es.foldl (mergeStep u sep L) st).txt)
      = ((st.originals.map MergedOriginal.txt).flatten ++ st.txt)
        ++ ((es.filter (fun e => !e.ignored)).map
            (fun e => e.content ++ sep)).flatten := by
  induction es with
  | nil =>
    intro st
    simp
  | cons e es ih =>
    intro st
    rw [List.foldl_cons, ih (mergeStep u sep L st e)]
    by_cases hig : e.ignored
    · rw [mergeStep, if_pos hig]
      simp [List.filter_cons, hig]
    · rw [mergeStep, if_neg hig]
      by_cases hfit : (st.txt ++ (e.content ++ sep)).length < L
      · rw [if_pos hfit]
        simp [List.filter_cons, hig, List.append_assoc]
      · rw [if_neg hfit]
        by_cases hne : st.txt ≠ []
        · rw [if_pos hne]
          simp [List.filter_cons, hig, List.append_assoc]
        · rw [if_neg hne]
          push_neg at hne
          simp [List.filter_cons, hig, hne, List.append_assoc]

/-- Claim C2, amended: the merge concatenation invariant holds for the
normalized-text fields, not for raw markup joined with the separator:
concatenating the batch `txt` fields in batch order (with no separator
inserted) exactly reproduces the concatenation, over the non-ignored
elements in order, of `content + separator`.  (The raw fields carry a
trailing separator after every element accepted by the length check and no
separator after an element that restarts a batch at a flush, so the
separator-join of the raw fields does not reproduce the separator-join of
the original raw markup.) -/
theorem C2_merge_concat_amended (u : Str → Str) (sep : Str) (L : Nat)
    (es : List PElem) :
    ((merge_prepare_original u sep L es).map MergedOriginal.txt).flatten
      = ((es.filter (fun e => !e.ignored)).map
          (fun e => e.content ++ sep)).flatten := by
  have h := mergeFold_txt_invariant u sep L es ⟨[], [], 0, []⟩
  simp only [List.map_nil, List.flatten_nil, List.nil_append] at h
  rw [merge_prepare_original, mergeFinish]
  by_cases hne : (es.foldl (mergeStep u sep L) ⟨[], [], 0, []⟩).txt ≠ []
  · rw [if_pos hne]
    simp only [List.map_append, List.map_cons, List.map_nil, List.flatten_append,
      List.flatten_cons, List.flatten_nil, List.append_nil]
    exact h
  · rw [if_neg hne]
    push_neg at hne
    rw [hne, List.append_nil] at h
    exact h

/-- The two elements of the C7 scenario (raw markup taken equal to the
content, which is all the merge text accounting observes). -/
def helloElem : PElem := ⟨str "Hello world.", str "Hello world.", false, none, none⟩

def testElem : PElem := ⟨str "This is a test.", str "This is a test.", false, none, none⟩

/-- Claim C7: in `ElementHandlerMerge.prepare_original` a non-ignored
unit's content (plus separator) is appended to the running batch when the
accumulated length stays below `merge_length`; otherwise the current
non-empty batch is flushed as a record whose fingerprint is `uid` of
`(batch index, accumulated text)` and a new batch starts with that unit;
the final non-empty batch is always flushed; and with `merge_length = 50`
and separator `"\n"` the contents `"Hello world."` and `"This is a test."`
merge into a single batch. -/
theorem C7_merge_batching (u : Str → Str) (sep : Str) (L : Nat)
    (st : MergeState) (e : PElem) :
    (e.ignored = false → (st.txt ++ (e.content ++ sep)).length < L →
      mergeStep u sep L st e
        = { st with
              raw := st.raw ++ e.raw ++ sep
              txt := st.txt ++ (e.content ++ sep) })
    ∧ (e.ignored = false → ¬(st.txt ++ (e.content ++ sep)).length < L →
        st.txt ≠ [] →
        mergeStep u sep L st e
          = ⟨e.raw, e.content ++ sep, st.oid + 1,
              st.originals
                ++ [⟨st.oid, u (uidInput st.oid st.txt), st.raw, st.txt, false⟩]⟩)
    ∧ (st.txt ≠ [] →
        mergeFinish u st
          = st.originals
              ++ [⟨st.oid, u (uidInput st.oid st.txt), st.raw, st.txt, false⟩])
    ∧ (st.txt = [] → mergeFinish u st = st.originals)
    ∧ merge_prepare_original id (str "\n") 50 [helloElem, testElem]
        = [⟨0, uidInput 0 (str "Hello world.\nThis is a test.\n"),
            str "Hello world.\nThis is a test.\n",
            str "Hello world.\nThis is a test.\n", false⟩] := by
  refine ⟨?_, ?_, ?_, ?_, by decide⟩
  · intro hig hfit
    rw [mergeStep, if_neg (by simp [hig]), if_pos hfit]
  · intro hig hfit hne
    rw [mergeStep, if_neg (by simp [hig]), if_neg hfit, if_pos hne]
  · intro hne
    rw [mergeFinish, if_pos hne]
  · intro hnil
    rw [mergeFinish, if_neg (by simp [hnil])]

/-- Witness for C7 at concrete inputs: the append branch fires for the
second scenario element. -/
theorem C7_merge_batching_witness :
    (testElem.ignored = false
      ∧ ((str "Hello world.\n") ++ (testElem.content ++ str "\n")).length < 50)
    ∧ mergeStep id (str "\n") 50
        ⟨str "Hello world.\n", str "Hello world.\n", 0, []⟩ testElem
      = ⟨str "Hello world.\n" ++ testElem.raw ++ str "\n",
          str "Hello world.\n" ++ (testElem.content ++ str "\n"), 0, []⟩ := by
  refine ⟨⟨rfl, by decide⟩, ?_⟩
  exact (C7_merge_batching id (str "\n") 50
    ⟨str "Hello world.\n", str "Hello world.\n", 0, []⟩ testElem).1 rfl (by decide)

/-- A record appended to `self.originals` by `ElementHandler.prepare_original`
(src/lib/element.py lines 464–466):
`(oid, md5, raw, content, ignored, attrs, page_id)`. -/
structure SingleOriginal where
  oid : Nat
  md5 : Str
  raw : Str
  content : Str
  ignored : Bool
  attrs : Option Str
  pageId : Option Str
deriving DecidableEq

/-- Loop of `ElementHandler.prepare_original` (src/lib/element.py lines
451–467): `oid` enumerates all elements, `count` keys only the non-ignored
ones into `self.elements`; every element contributes one record to
`self.originals`.  (The `set_placeholder`/`set_column_gap` calls configure
the element for later reinsertion and do not affect either result.) -/
def single_prepare_aux (u : Str → Str) :
    List PElem → Nat → Nat → List (Nat × PElem) × List SingleOriginal
  | [], _, _ => ([], [])
  | e :: es, oid, count =>
    if e.ignored then
      let rest := single_prepare_aux u es (oid + 1) count
      (rest.1,
        ⟨oid, u (uidInput oid e.content), e.raw, e.content, e.ignored,
          e.attrs, e.pageId⟩ :: rest.2)
    else
      let rest := single_prepare_aux u es (oid + 1) (count + 1)
      ((count, e) :: rest.1,
        ⟨oid, u (uidInput oid e.content), e.raw, e.content, e.ignored,
          e.attrs, e.pageId⟩ :: rest.2)

/-- `ElementHandler.prepare_original`: the `elements` map (as an ordered
association list, matching Python dict insertion order) and the `originals`
list. -/
def single_prepare_original (u : Str → Str) (es : List PElem) :
    List (Nat × PElem) × List SingleOriginal :=
  single_prepare_aux u es 0 0

/-- An external `Paragraph` record as consumed by
`ElementHandler.prepare_translation`: original text and (possibly absent)
translation text. -/
structure Paragraph where
  original : Str
  translation : Option Str
deriving DecidableEq

/-- `ElementHandler.prepare_translation` (src/lib/element.py lines 469–473):
`translations[paragraph.original] = paragraph.translation` builds a dict in
which a later paragraph with the same original overwrites an earlier one,
and `dict.get` returns `None` both for a missing key and for a stored
`None` translation. -/
def prepare_translation_single (ps : List Paragraph) (s : Str) : Option Str :=
  match ps.reverse.find? (fun p => p.original == s) with
  | some p => p.translation
  | none => none

/-- Loop of `ElementHandler.add_translations` (src/lib/element.py lines
475–491) over a snapshot (`self.elements.copy()`) of the pending map,
returning the surviving map and the trace of `add_translation` calls
`(eid, applied translation)`.  An ignored element and an element whose
content has no (non-`None`) translation receive `add_translation(None, ...)`
and stay in the map (`continue` skips the `pop`); only an element that
receives an actual translation is removed. -/
def add_translations_go (trs : Str → Option Str) :
    List (Nat × PElem) → List (Nat × PElem) × List (Nat × Option Str)
  | [] => ([], [])
  | (eid, e) :: rest =>
    let r := add_translations_go trs rest
    if e.ignored then ((eid, e) :: r.1, (eid, (none : Option Str)) :: r.2)
    else
      match trs e.content with
      | none => ((eid, e) :: r.1, (eid, (none : Option Str)) :: r.2)
      | some t => (r.1, (eid, some t) :: r.2)

/-- Claim C4 counterexample: one active element whose content `"a"` has no
matching paragraph.  `add_translations` applies the explicit absence
(`add_translation(None, ...)`) but does not remove the element from
`elements`, and a second call with the same (empty) paragraph set issues
another `add_translation` call instead of being a no-op. -/
theorem C4_removal_counterexample :
    ((add_translations_go (prepare_translation_single [])
        (single_prepare_original id
          [⟨str "<p>a</p>", str "a", false, none, none⟩]).1).1
      = [(0, ⟨str "<p>a</p>", str "a", false, none, none⟩)])
    ∧ (add_translations_go (prepare_translation_single [])
        (add_translations_go (prepare_translation_single [])
          (single_prepare_original id
            [⟨str "<p>a</p>", str "a", false, none, none⟩]).1).1).2
      ≠ [] := by
  decide

/-- The keys produced by `single_prepare_aux` are at least the starting
counter. -/
theorem single_prepare_keys_ge (u : Str → Str) :
    ∀ (es : List PElem) (oid count k : Nat),
      k ∈ (single_prepare_aux u es oid count).1.map Prod.fst → count ≤ k := by
  intro es
  induction es with
  | nil =>
    intro oid count k hk
    simp [single_prepare_aux] at hk
  | cons e es ih =>
    intro oid count k hk
    rw [single_prepare_aux] at hk
    by_cases hig : e.ignored
    · rw [if_pos hig] at hk
      exact ih (oid + 1) count k hk
    · rw [if_neg hig] at hk
      simp only [List.map_cons, List.mem_cons] at hk
      rcases hk with hk | hk
      · omega
      · have := ih (oid + 1) (count + 1) k hk
        omega

/-- The keys produced by `single_prepare_aux` are strictly increasing, so
each key occurs once. -/
theorem single_prepare_keys_nodup (u : Str → Str) :
    ∀ (es : List PElem) (oid count : Nat),
      ((single_prepare_aux u es oid count).1.map Prod.fst).Nodup := by
  intro es
  induction es with
  | nil =>
    intro oid count
    simp [single_prepare_aux]
  | cons e es ih =>
    intro oid count
    rw [single_prepare_aux]
    by_cases hig : e.ignored
    · rw [if_pos hig]
      exact ih (oid + 1) count
    · rw [if_neg hig]
      simp only [List.map_cons, List.nodup_cons]
      refine ⟨?_, ih (oid + 1) (count + 1)⟩
      intro hmem
      have := single_prepare_keys_ge u es (oid + 1) (count + 1) count hmem
      omega

/-- The values registered by `single_prepare_aux` are exactly the
non-ignored elements, in order. -/
theorem single_prepare_values (u : Str → Str) :
    ∀ (es : List PElem) (oid count : Nat),
      (single_prepare_aux u es oid count).1.map Prod.snd
        = es.filter (fun e => !e.ignored) := by
  intro es
  induction es with
  | nil =>
    intro oid count
    simp [single_prepare_aux]
  | cons e es ih =>
    intro oid count
    rw [single_prepare_aux]
    by_cases hig : e.ignored
    · rw [if_pos hig]
      rw [List.filter_cons_of_neg (by simp [hig])]
      exact ih (oid + 1) count
    · rw [if_neg hig]
      rw [List.filter_cons_of_pos (by simp [hig])]
      simp only [List.map_cons, List.cons.injEq]
      exact ⟨trivial, ih (oid + 1) (count + 1)⟩

/-- When every pending element is active and its content is covered by the
translation lookup, the `add_translations` loop empties the pending map. -/
theorem add_translations_go_all_covered (trs : Str → Option Str) :
    ∀ l : List (Nat × PElem),
      (∀ pr ∈ l, pr.2.ignored = false ∧ (trs pr.2.content).isSome) →
      (add_translations_go trs l).1 = [] := by
  intro l
  induction l with
  | nil =>
    intro _
    rfl
  | cons pr rest ih =>
    intro hcov
    obtain ⟨eid, e⟩ := pr
    have he := hcov (eid, e) (List.mem_cons_self _ _)
    rw [add_translations_go]
    rw [if_neg (by simp only [Bool.not_eq_true]; exact he.1)]
    rcases ht : trs e.content with _ | t
    · rw [ht] at he
      simp at he
    · simp only
      exact ih (fun pr hpr => hcov pr (List.mem_cons_of_mem _ hpr))

/-- Claim C4, amended: every active element appears at most once as a key in
the single handler's `elements` map (keys are a fresh counter; the values
are exactly the non-ignored elements in order); an element is removed from
the map exactly when a non-`None` translation is applied, while an element
whose translation is absent stays pending and receives another
`add_translation(None, ...)` on later calls; consequently, when the
paragraph set provides a translation for every registered element's
content, the first `add_translations` call empties the map and a second
call issues no `add_translation` call at all. -/
theorem C4_reinsertion_amended (u : Str → Str) (es : List PElem)
    (ps : List Paragraph)
    (hcov : ∀ pr ∈ (single_prepare_original u es).1,
      (prepare_translation_single ps pr.2.content).isSome) :
    ((single_prepare_original u es).1.map Prod.fst).Nodup
    ∧ (single_prepare_original u es).1.map Prod.snd
        = es.filter (fun e => !e.ignored)
    ∧ (add_translations_go (prepare_translation_single ps)
        (single_prepare_original u es).1).1 = []
    ∧ (add_translations_go (prepare_translation_single ps)
        (add_translations_go (prepare_translation_single ps)
          (single_prepare_original u es).1).1).2 = [] := by
  have hvals := single_prepare_values u es 0 0
  have hempty : (add_translations_go (prepare_translation_single ps)
      (single_prepare_original u es).1).1 = [] := by
    refine add_translations_go_all_covered _ _ ?_
    intro pr hpr
    refine ⟨?_, hcov pr hpr⟩
    have : pr.2 ∈ (single_prepare_original u es).1.map Prod.snd :=
      List.mem_map_of_mem Prod.snd hpr
    rw [single_prepare_original] at this
    rw [single_prepare_values u es 0 0] at this
    have := List.of_mem_filter this
    simpa using this
  refine ⟨single_prepare_keys_nodup u es 0 0, hvals, hempty, ?_⟩
  rw [hempty]
  rfl

/-- Witness for C4 at a concrete input: one active element, one matching
paragraph. -/
theorem C4_reinsertion_amended_witness :
    (∀ pr ∈ (single_prepare_original id
        [⟨str "<p>a</p>", str "a", false, none, none⟩]).1,
      (prepare_translation_single [⟨str "a", some (str "A")⟩]
        pr.2.content).isSome)
    ∧ (add_translations_go
        (prepare_translation_single [⟨str "a", some (str "A")⟩])
        (single_prepare_original id
          [⟨str "<p>a</p>", str "a", false, none, none⟩]).1).1 = [] := by
  refine ⟨by decide, ?_⟩
  exact (C4_reinsertion_amended id
    [⟨str "<p>a</p>", str "a", false, none, none⟩]
    [⟨str "a", some (str "A")⟩] (by decide)).2.2.1

/-!  ## XHTML nodes, `_create_table` and reinsertion of an untranslated unit -/

/-- An lxml element: tag, attributes (in document order), text before the
first child, children, and trailing text (`tail`). -/
inductive XN where
  | mk (tag : String) (attrs : List (String × Str)) (text : Str)
      (children : List XN) (tail : Str)

def XN.tag : XN → String
  | .mk t _ _ _ _ => t

def XN.attrs : XN → List (String × Str)
  | .mk _ a _ _ _ => a

def XN.text : XN → Str
  | .mk _ _ tx _ _ => tx

def XN.children : XN → List XN
  | .mk _ _ _ ch _ => ch

def XN.tail : XN → Str
  | .mk _ _ _ _ tl => tl

/-- lxml `element.set(key, value)`: replace the value of an existing
attribute, else append a new one. -/
def setAttrList (k : String) (v : Str) : List (String × Str) → List (String × Str)
  | [] => [(k, v)]
  | (k', v') :: rest =>
    if k' = k then (k, v) :: rest else (k', v') :: setAttrList k v rest

def XN.setAttr : XN → String → Str → XN
  | .mk t a tx ch tl, k, v => .mk t (setAttrList k v a) tx ch tl

def getAttr (n : XN) (k : String) : Option Str :=
  (n.attrs.find? (fun a => a.1 == k)).map Prod.snd

/-- The non-breaking space used as literal gap padding. -/
def nbsp : Char := '\xA0'

/-- Python `round((100 - value) / 2)` on integers: exact when the argument
is even, and round-half-to-even (banker's rounding, as Python `round` does
on a `.5` float) when it is odd. -/
def pyRoundHalf (n : Int) : Int :=
  if n % 2 = 0 then Int.fdiv n 2
  else if (Int.fdiv n 2) % 2 = 0 then Int.fdiv n 2 else Int.fdiv n 2 + 1

/-- Attributes of the first table cell (`td_left`): `valign` is set at
creation, `width` per the column-gap policy
(src/lib/element.py lines 281–298). -/
def tdLeftAttrs (gap : Option (String × Int)) : List (String × Str) :=
  match gap with
  | none => [("valign", str "top"), ("width", str "45%")]
  | some (unit, value) =>
    if unit = "percentage" then
      [("valign", str "top"),
        ("width", str (toString (pyRoundHalf (100 - value)) ++ "%"))]
    else [("valign", str "top"), ("width", str "50%")]

/-- Attributes of the middle cell: a width for the default and percentage
policies, nothing for the fixed policy. -/
def tdMiddleAttrs (gap : Option (String × Int)) : List (String × Str) :=
  match gap with
  | none => [("width", str "10%")]
  | some (unit, value) =>
    if unit = "percentage" then [("width", str (toString value ++ "%"))]
    else []

/-- Text of the middle cell: `'\xa0' * value` non-breaking spaces for the
fixed policy, empty otherwise. -/
def tdMiddlePad (gap : Option (String × Int)) : Str :=
  match gap with
  | none => []
  | some (unit, value) =>
    if unit = "percentage" then [] else List.replicate value.toNat nbsp

/-- `td_right` mirrors `td_left`'s attributes. -/
def tdRightAttrs (gap : Option (String × Int)) : List (String × Str) :=
  tdLeftAttrs gap

/-- Children of `td_left`: the translation (when present) for position
`left`, the original for position `right`
(src/lib/element.py lines 299–306). -/
def tdLeftChildren (pos : Position) (original : XN) (translation : Option XN) :
    List XN :=
  if pos = Position.left then
    match translation with
    | some tr => [tr]
    | none => []
  else if pos = Position.right then [original]
  else []

/-- Children of `td_right`: the original for position `left`, the
translation (when present) for position `right`. -/
def tdRightChildren (pos : Position) (original : XN) (translation : Option XN) :
    List XN :=
  if pos = Position.left then [original]
  else if pos = Position.right then
    match translation with
    | some tr => [tr]
    | none => []
  else []

/-- `PageElement._create_table` (src/lib/element.py lines 276–307): a
`table` of width 100% with one row of three cells (original / gap /
translation or vice versa). -/
def create_table (gap : Option (String × Int)) (pos : Position)
    (original : XN) (translation : Option XN) : XN :=
  XN.mk "table" [("width", str "100%")] []
    [XN.mk "tr" [] []
      [XN.mk "td" (tdLeftAttrs gap) [] (tdLeftChildren pos original translation) [],
       XN.mk "td" (tdMiddleAttrs gap) (tdMiddlePad gap) [] [],
       XN.mk "td" (tdRightAttrs gap) [] (tdRightChildren pos original translation) []]
      []]
    []

/-- The three `td` cells of a synthesized table. -/
def tableCells (t : XN) : List XN :=
  match t.children with
  | [tr] => tr.children
  | _ => []

/-- The `width` attribute of each cell of a synthesized table. -/
def tdWidths (t : XN) : List (Option Str) :=
  (tableCells t).map (fun td => getAttr td "width")

/-- Text content of the middle cell of a synthesized table. -/
def tableMiddleText (t : XN) : Str :=
  match tableCells t with
  | [_, m, _] => m.text
  | _ => []

/-- Children of the cell at index `i` of a synthesized table. -/
def tableCellChildren (t : XN) (i : Nat) : List XN :=
  ((tableCells t).getD i (XN.mk "" [] [] [] [])).children

/-- A concrete original node used by the closed table-layout statements. -/
def pHello : XN := XN.mk "p" [] (str "hello") [] []

/-- Claim C8 counterexample: with a percentage gap of 15 the source sets
the content-column width to `round((100 - 15) / 2) = 42` percent — the
string `"42%"`, not the claimed `((100 - g)/2)% = 42.5%`. -/
theorem C8_rounding_counterexample :
    tdWidths (create_table (some ("percentage", 15)) Position.left pHello none)
      = [some (str "42%"), some (str "15%"), some (str "42%")]
    ∧ str "42%" ≠ str "42.5%" := by
  constructor
  · rfl
  · decide

/-- Claim C8, amended: with no column gap the cell widths are 45%, 10%,
45%; with a percentage gap `g` the content columns are
`round((100 − g)/2)` percent (exactly `(100 − g)/2` whenever `100 − g` is
even, banker's rounding otherwise) and the middle cell `g` percent; with a
fixed unit count both content columns are 50% and the middle cell holds
that many non-breaking spaces; in particular position `left` with
column gap `(percentage, 10)` yields widths 45%, 10%, 45%. -/
theorem C8_table_widths_amended (pos : Position) (orig : XN)
    (tr : Option XN) (g v : Int) (unit : String) :
    tdWidths (create_table none pos orig tr)
      = [some (str "45%"), some (str "10%"), some (str "45%")]
    ∧ tdWidths (create_table (some ("percentage", g)) pos orig tr)
      = [some (str (toString (pyRoundHalf (100 - g)) ++ "%")),
          some (str (toString g ++ "%")),
          some (str (toString (pyRoundHalf (100 - g)) ++ "%"))]
    ∧ (∀ k : Int, 100 - g = 2 * k → pyRoundHalf (100 - g) = k)
    ∧ (unit ≠ "percentage" →
        tdWidths (create_table (some (unit, v)) pos orig tr)
          = [some (str "50%"), none, some (str "50%")]
        ∧ tableMiddleText (create_table (some (unit, v)) pos orig tr)
          = List.replicate v.toNat nbsp)
    ∧ tdWidths (create_table (some ("percentage", 10)) Position.left pHello none)
      = [some (str "45%"), some (str "10%"), some (str "45%")] := by
  refine ⟨rfl, ?_, ?_, ?_, by rfl⟩
  · simp [tdWidths, create_table, tableCells, XN.children, getAttr, XN.attrs,
      tdLeftAttrs, tdMiddleAttrs, tdRightAttrs]
  · intro k hk
    rw [pyRoundHalf, hk]
    rw [if_pos (by omega)]
    rw [Int.mul_fdiv_cancel_left _ (by omega)]
  · intro hunit
    constructor
    · simp [tdWidths, create_table, tableCells, XN.children, getAttr, XN.attrs,
        tdLeftAttrs, tdMiddleAttrs, tdRightAttrs, hunit]
    · simp [tableMiddleText, create_table, tableCells, XN.children, XN.text,
        tdMiddlePad, hunit]

/-- Witness for C8 at a concrete input: `unit = "fixed"`, four padding
characters. -/
theorem C8_table_widths_amended_witness :
    ("fixed" ≠ "percentage")
    ∧ tdWidths (create_table (some ("fixed", 4)) Position.left pHello none)
        = [some (str "50%"), none, some (str "50%")]
    ∧ tableMiddleText (create_table (some ("fixed", 4)) Position.left pHello none)
        = List.replicate (4 : Int).toNat nbsp := by
  have h := (C8_table_widths_amended Position.left pHello none 10 4
    "fixed").2.2.2.1 (by decide)
  exact ⟨by decide, h.1, h.2⟩

/-- When an original color is configured, `add_translation` first styles the
original node (`self.element.set('style', 'color:%s' % original_color)`,
src/lib/element.py lines 224–225). -/
def applyOriginalColor (oc : Option Str) (el : XN) : XN :=
  match oc with
  | none => el
  | some color => el.setAttr "style" (str "color:" ++ color)

/-- The `translation is None` branch of `PageElement.add_translation`
(src/lib/element.py lines 224–233), acting on the element's sibling list
(`pre ++ [el] ++ post`): for positions left/right a side-by-side table
holding a copy of the (optionally styled) original is inserted after the
element by `addnext` and the element is then deleted; for every other
position nothing further happens. -/
def page_add_translation_none (gap : Option (String × Int)) (oc : Option Str)
    (pos : Position) (pre : List XN) (el : XN) (post : List XN) : List XN :=
  if pos = Position.left ∨ pos = Position.right then
    pre ++ [create_table gap pos (applyOriginalColor oc el) none] ++ post
  else pre ++ [applyOriginalColor oc el] ++ post

/-- Claim C5 counterexample: the single-unit handler never registers an
ignored element (`prepare_original` line 461 guards on `not
element.ignored`), so an ignored unit receives no `add_translation` call at
all — the trace of the subsequent `add_translations` is empty. -/
theorem C5_ignored_single_counterexample :
    (single_prepare_original id
        [⟨str "<p>x</p>", str "x", true, none, none⟩]).1 = []
    ∧ (add_translations_go (prepare_translation_single [])
        (single_prepare_original id
          [⟨str "<p>x</p>", str "x", true, none, none⟩]).1).2 = [] := by
  decide

/-- Every pending element that is ignored or whose content has no
translation receives an `add_translation(None, ...)` call. -/
theorem add_translations_none_call (trs : Str → Option Str) :
    ∀ (l : List (Nat × PElem)) (eid : Nat) (e : PElem), (eid, e) ∈ l →
      (e.ignored = true ∨ trs e.content = none) →
      (eid, (none : Option Str)) ∈ (add_translations_go trs l).2 := by
  intro l
  induction l with
  | nil =>
    intro eid e hmem _
    simp at hmem
  | cons pr rest ih =>
    intro eid e hmem hno
    obtain ⟨eid', e'⟩ := pr
    rw [add_translations_go]
    rcases List.mem_cons.mp hmem with heq | hmem'
    · obtain ⟨h1, h2⟩ := Prod.mk.injEq .. ▸ heq
      subst h1
      subst h2
      by_cases hig : e.ignored
      · rw [if_pos hig]
        exact List.mem_cons_self _ _
      · rw [if_neg hig]
        rcases hno with hno | hno
        · exact absurd hno hig
        · rw [hno]
          exact List.mem_cons_self _ _
    · have htail := ih eid e hmem' hno
      by_cases hig : e'.ignored
      · rw [if_pos hig]
        exact List.mem_cons_of_mem _ htail
      · rw [if_neg hig]
        rcases ht : trs e'.content with _ | tt
        · exact List.mem_cons_of_mem _ htail
        · exact List.mem_cons_of_mem _ htail

/-- Claim C5, amended: every unit registered in a handler's pending map
that is never given a translation (every unit, including the ignored ones,
in the merge handler, whose map holds all elements; only the non-ignored
units in the single-unit handler, which never registers an ignored element
and so never calls it at all) receives an `add_translation(None, position,
...)` call; for the left/right positions that call builds the side-by-side
table containing the (optionally color-styled) original and deletes the
original node from its sibling list, and for every other position it is a
no-op beyond the optional original-color style. -/
theorem C5_untranslated_amended (trs : Str → Option Str)
    (es : List PElem) (l : List (Nat × PElem)) (eid : Nat) (e : PElem)
    (gap : Option (String × Int)) (oc : Option Str) (pos : Position)
    (pre post : List XN) (el : XN)
    (hmem : (eid, e) ∈ l) (hno : e.ignored = true ∨ trs e.content = none) :
    (merge_elements_map es).map Prod.snd = es
    ∧ (eid, (none : Option Str)) ∈ (add_translations_go trs l).2
    ∧ (pos = Position.left ∨ pos = Position.right →
        page_add_translation_none gap oc pos pre el post
          = pre ++ [create_table gap pos (applyOriginalColor oc el) none] ++ post
        ∧ tableCellChildren
            (create_table gap Position.left (applyOriginalColor oc el) none) 2
          = [applyOriginalColor oc el]
        ∧ tableCellChildren
            (create_table gap Position.right (applyOriginalColor oc el) none) 0
          = [applyOriginalColor oc el])
    ∧ (¬(pos = Position.left ∨ pos = Position.right) →
        page_add_translation_none gap oc pos pre el post
          = pre ++ [applyOriginalColor oc el] ++ post)
    ∧ applyOriginalColor none el = el := by
  refine ⟨?_, add_translations_none_call trs l eid e hmem hno, ?_, ?_, rfl⟩
  · rw [merge_elements_map]
    exact List.enum_map_snd es
  · intro hlr
    refine ⟨by rw [page_add_translation_none, if_pos hlr], ?_, ?_⟩
    · rfl
    · rfl
  · intro hlr
    rw [page_add_translation_none, if_neg hlr]

/-- Witness for C5 at a concrete input: an ignored pending element of the
merge handler with position `left`. -/
theorem C5_untranslated_amended_witness :
    ((0, (⟨str "<p>x</p>", str "x", true, none, none⟩ : PElem))
        ∈ merge_elements_map [⟨str "<p>x</p>", str "x", true, none, none⟩]
      ∧ ((⟨str "<p>x</p>", str "x", true, none, none⟩ : PElem).ignored = true
          ∨ prepare_translation_single [] (str "x") = none))
    ∧ ((0, (none : Option Str))
        ∈ (add_translations_go (prepare_translation_single [])
            (merge_elements_map
              [⟨str "<p>x</p>", str "x", true, none, none⟩])).2)
    ∧ page_add_translation_none none none Position.left [] pHello []
        = [create_table none Position.left pHello none] := by
  refine ⟨⟨by decide, Or.inl rfl⟩, ?_, ?_⟩
  · exact (C5_untranslated_amended (prepare_translation_single [])
      [] (merge_elements_map [⟨str "<p>x</p>", str "x", true, none, none⟩])
      0 ⟨str "<p>x</p>", str "x", true, none, none⟩ none none Position.left
      [] [] pHello (by decide) (Or.inl rfl)).2.1
  · have h := (C5_untranslated_amended (prepare_translation_single [])
      [] (merge_elements_map [⟨str "<p>x</p>", str "x", true, none, none⟩])
      0 ⟨str "<p>x</p>", str "x", true, none, none⟩ none none Position.left
      [] [] pHello (by decide) (Or.inl rfl)).2.2.1 (Or.inl rfl)
    simpa using h.1

/-!  ## Extraction (`Extraction.extract_elements`) -/

/-- A parsed page node for the extraction walk: tag, text before the first
child, element children, trailing text.  (lxml's `element.text`/`tail` of
`None` and `''` both behave as empty here, which is exactly how
`extract_elements` tests them.) -/
inductive Tree where
  | node (tag : String) (text : Str) (children : List Tree) (tail : Str)

def Tree.tag : Tree → String
  | .node tg _ _ _ => tg

def Tree.text : Tree → Str
  | .node _ tx _ _ => tx

def Tree.children : Tree → List Tree
  | .node _ _ ch _ => ch

def Tree.tail : Tree → Str
  | .node _ _ _ tl => tl

/-- `priority_elements` (src/lib/element.py line 374). -/
def priorityTags : List String := ["p", "pre", "h1", "h2", "h3", "h4", "h5", "h6"]

/-- The `element_has_content` computation of `Extraction.extract_elements`
(src/lib/element.py lines 378–389): direct non-empty text, or element
children with a priority tag, or some direct child with non-empty trailing
text. -/
def hasContent : Tree → Bool
  | Tree.node tg tx ch _ =>
    if !(pyStrip tx).isEmpty then true
    else if !ch.isEmpty && priorityTags.contains tg then true
    else ch.any (fun c => !(pyStrip c.tail).isEmpty)

mutual
/-- The body of the `for element in root.findall('./*')` loop of
`Extraction.extract_elements` (src/lib/element.py lines 375–395) as its
effect on the shared accumulator list: a child with content is appended,
otherwise the walk recurses into it (the recursive call's return value is
discarded in the source; only the mutation of the shared list survives). -/
def extractStep : Tree → List Tree → List Tree
  | Tree.node tg tx ch tl, acc =>
    if hasContent (Tree.node tg tx ch tl) then acc ++ [Tree.node tg tx ch tl]
    else extractChildren ch acc

/-- The loop over the children of a node. -/
def extractChildren : List Tree → List Tree → List Tree
  | [], acc => acc
  | c :: cs, acc => extractChildren cs (extractStep c acc)
end

/-- `Extraction.extract_elements` (src/lib/element.py lines 373–399): walk
the children accumulating onto `acc`, and return the accumulated list — or
`[root]` when that list is empty (`return elements if elements else
[page_element]`). -/
def extract_elements_model (t : Tree) (acc : List Tree) : List Tree :=
  if (extractChildren t.children acc).isEmpty then [t]
  else extractChildren t.children acc

def tA : Tree := Tree.node "p" (str "hello") [] []

def tC : Tree := Tree.node "div" [] [] []

def tB : Tree := Tree.node "div" [] [tC] []

def tR : Tree := Tree.node "body" [] [tA, tB] []

/-- Claim C6 counterexample: the node `tB` yields no extractable
descendants, yet — reached mid-traversal with the shared accumulator
already holding `tA` — the call on it returns `[tA]`, not `[tB]`, and the
extraction of the whole page body containing it returns only `[tA]`: an
inner content-less node never becomes a unit once any unit was extracted
before it. -/
theorem C6_fallback_counterexample :
    extractChildren tB.children [] = []
    ∧ extract_elements_model tB [tA] = [tA]
    ∧ extract_elements_model tR [] = [tA]
    ∧ tA ≠ tB := by
  refine ⟨rfl, rfl, rfl, ?_⟩
  intro h
  injection h with h1 _ _ _
  exact absurd h1 (by decide)

/-- Claim C6, amended: a child is treated as an extractable unit iff it
has direct non-empty text, or has element children and a tag in the fixed
priority set, or some direct child has non-empty trailing text; otherwise
extraction recurses into the child, passing the shared accumulator (the
recursive call's return value is discarded); a node that yields no
extractable descendants becomes the sole returned unit only when the
accumulator is empty at its call — in particular at the top-level call on a
page body that yields no units at all — and whenever anything was
accumulated the accumulated list itself is returned. -/
theorem C6_extraction_amended (t c : Tree) (cs : List Tree)
    (acc : List Tree) :
    (hasContent c = true ↔
      (pyStrip c.text ≠ []
        ∨ (c.children ≠ [] ∧ c.tag ∈ priorityTags)
        ∨ ∃ ch ∈ c.children, pyStrip ch.tail ≠ []))
    ∧ extractChildren (c :: cs) acc
        = extractChildren cs
            (if hasContent c then acc ++ [c] else extractChildren c.children acc)
    ∧ (extractChildren t.children [] = [] → extract_elements_model t [] = [t])
    ∧ (extractChildren t.children acc ≠ [] →
        extract_elements_model t acc = extractChildren t.children acc) := by
  refine ⟨?_, ?_, ?_, ?_⟩
  · cases c with
    | node tg tx ch tl =>
      show (if !(pyStrip tx).isEmpty then true
        else if !ch.isEmpty && priorityTags.contains tg then true
        else ch.any (fun c => !(pyStrip c.tail).isEmpty)) = true ↔ _
      simp only [Tree.text, Tree.children, Tree.tag]
      by_cases h1 : pyStrip tx = []
      · rw [if_neg (by simp [h1])]
        by_cases h2 : ch = []
        · rw [if_neg (by simp [h2])]
          simp [h1, h2, List.any_eq_true, List.isEmpty_iff]
        · by_cases h3 : tg ∈ priorityTags
          · rw [if_pos (by simp [h2, List.isEmpty_iff, h3, List.elem_iff])]
            simp [h1, h2, h3]
          · rw [if_neg (by simp [List.isEmpty_iff, List.elem_iff, h3])]
            simp [h1, h2, h3, List.any_eq_true, List.isEmpty_iff]
      · rw [if_pos (by simp [List.isEmpty_iff, h1])]
        simp [h1]
  · cases c with
    | node tg tx ch tl => rfl
  · intro h
    rw [extract_elements_model, h]
    rfl
  · intro h
    rw [extract_elements_model, if_neg (by simp [List.isEmpty_iff, h])]

/-- Witness for C6 at a concrete input: the empty `div` at top level
becomes the sole returned unit. -/
theorem C6_extraction_amended_witness :
    extractChildren tC.children [] = []
    ∧ extract_elements_model tC [] = [tC] := by
  refine ⟨rfl, ?_⟩
  exact (C6_extraction_amended tC tC [] []).2.2.1 rfl

/-!  ## `_polish_translation` (run collapsing) -/

/-- `re.sub` with a literal pattern and a replacement that is not scanned
for backreferences: replace every non-overlapping, leftmost occurrence. -/
def replaceAll (pat rep s : Str) : Str := joinSep rep (splitOnL pat s)

/-- Python's `\w` on the ASCII range: letters, digits and underscore.
(Python also matches non-ASCII word characters; no claim involves any.) -/
def isWordChar (c : Char) : Bool := c.isAlphanum || c = '_'

/-- What the regex `((\w)\2{3})\2*` → `\1` leaves of one maximal run of `k`
copies of `c`: four copies when `c` is a word character and `k ≥ 4`, the
run unchanged otherwise. -/
def emitRun (c : Char) (k : Nat) : Str :=
  List.replicate (if isWordChar c && decide (4 ≤ k) then 4 else k) c

/-- Scan of the run-collapsing substitution: `cur` is the character of the
current run, `k` how many copies have been seen. -/
def collapseAux (cur : Char) (k : Nat) : Str → Str
  | [] => emitRun cur k
  | x :: xs =>
    if x = cur then collapseAux cur (k + 1) xs
    else emitRun cur k ++ collapseAux x 1 xs

/-- The substitution `re.sub(r'((\w)\2{3})\2*', r'\1', s)`
(src/lib/element.py line 219). -/
def collapseRuns : Str → Str
  | [] => []
  | x :: xs => collapseAux x 1 xs

/-- `PageElement._polish_translation` (src/lib/element.py lines 216–219):
newlines become `<br />`, then runs of four-or-more repeated identical word
characters collapse to four. -/
def polish_translation (s : Str) : Str :=
  collapseRuns (replaceAll (str "\n") (str "<br />") s)

/-- Claim C9 counterexample: a run of six dots survives
`_polish_translation` unchanged — the regex `((\w)\2{3})\2*` only matches
word characters, so not every run of four-or-more repeated identical
characters is collapsed. -/
theorem C9_wordchar_counterexample :
    polish_translation (str "......") = str "......"
    ∧ str "......" ≠ str "...." := by
  decide

theorem collapseAux_nil (cur : Char) (k : Nat) :
    collapseAux cur k [] = emitRun cur k := rfl

theorem collapseAux_cons_self (cur : Char) (k : Nat) (xs : Str) :
    collapseAux cur k (cur :: xs) = collapseAux cur (k + 1) xs := by
  show (if cur = cur then collapseAux cur (k + 1) xs
    else emitRun cur k ++ collapseAux cur 1 xs) = _
  rw [if_pos rfl]

theorem collapseAux_cons_ne (cur x : Char) (k : Nat) (xs : Str)
    (h : x ≠ cur) :
    collapseAux cur k (x :: xs) = emitRun cur k ++ collapseAux x 1 xs := by
  show (if x = cur then collapseAux cur (k + 1) xs
    else emitRun cur k ++ collapseAux x 1 xs) = _
  rw [if_neg h]

theorem collapseRuns_nil : collapseRuns [] = [] := rfl

theorem collapseRuns_cons (x : Char) (xs : Str) :
    collapseRuns (x :: xs) = collapseAux x 1 xs := rfl

/-- Absorbing a run: scanning `m` further copies of the current character
followed by text that starts differently emits one maximal run. -/
theorem collapseAux_run (c : Char) :
    ∀ (m k : Nat) (b : Str), (∀ y, b.head? = some y → y ≠ c) →
      collapseAux c k (List.replicate m c ++ b)
        = emitRun c (k + m) ++ collapseRuns b := by
  intro m
  induction m with
  | zero =>
    intro k b hb
    simp only [List.replicate, List.nil_append, Nat.add_zero]
    cases b with
    | nil => rw [collapseAux_nil, collapseRuns_nil, List.append_nil]
    | cons y ys =>
      rw [collapseAux_cons_ne c y k ys (hb y rfl), collapseRuns_cons]
  | succ m ih =>
    intro k b hb
    simp only [List.replicate_succ, List.cons_append]
    rw [collapseAux_cons_self, ih (k + 1) b hb]
    have h : k + 1 + m = k + (m + 1) := by omega
    rw [h]

/-- For a non-word character the scan never shortens anything: the
accumulated count can be split off as literal copies. -/
theorem emitRun_nonword (c : Char) (n : Nat) (hw : isWordChar c = false) :
    emitRun c n = List.replicate n c := by
  rw [emitRun, if_neg (by simp [hw])]

theorem collapseAux_nonword_split (cur : Char) (hw : isWordChar cur = false) :
    ∀ (ys : Str) (j k : Nat),
      collapseAux cur (j + k) ys
        = List.replicate j cur ++ collapseAux cur k ys := by
  intro ys
  induction ys with
  | nil =>
    intro j k
    rw [collapseAux_nil, collapseAux_nil, emitRun_nonword _ _ hw,
      emitRun_nonword _ _ hw, List.replicate_add]
  | cons y ys ih =>
    intro j k
    by_cases hy : y = cur
    · subst hy
      rw [collapseAux_cons_self, collapseAux_cons_self]
      have h : j + k + 1 = j + (k + 1) := by omega
      rw [h, ih j (k + 1)]
    · rw [collapseAux_cons_ne cur y _ ys hy, collapseAux_cons_ne cur y _ ys hy,
        emitRun_nonword _ _ hw, emitRun_nonword _ _ hw, List.replicate_add,
        List.append_assoc]

/-- The character that ends the run context `cur` followed by `xs`. -/
def effLast (cur : Char) (xs : Str) : Char := xs.getLast?.getD cur

theorem effLast_cons (cur x : Char) (xs : Str) :
    effLast cur (x :: xs) = effLast x xs := by
  cases xs with
  | nil => rfl
  | cons y ys =>
    rw [effLast, effLast, List.getLast?_cons_cons]
    obtain ⟨z, hz⟩ := Option.isSome_iff_exists.mp
      (List.getLast?_isSome.mpr (List.cons_ne_nil y ys))
    rw [hz]
    rfl

theorem getLast?_cons_eq_effLast (x : Char) :
    ∀ xs : Str, (x :: xs).getLast? = some (effLast x xs)
  | [] => rfl
  | y :: ys => by
    rw [List.getLast?_cons_cons, getLast?_cons_eq_effLast y ys, effLast_cons]

/-- The scan distributes over an append whose boundary cannot merge a
word-character run: either the characters at the seam differ, or the shared
character is not a word character. -/
theorem collapseAux_append (b : Str) :
    ∀ (xs : Str) (cur : Char) (k : Nat),
      (∀ y, b.head? = some y → y = effLast cur xs → isWordChar y = false) →
      collapseAux cur k (xs ++ b) = collapseAux cur k xs ++ collapseRuns b := by
  intro xs
  induction xs with
  | nil =>
    intro cur k hcond
    simp only [List.nil_append]
    cases b with
    | nil => rw [collapseAux_nil, collapseRuns_nil, List.append_nil]
    | cons y ys =>
      by_cases hy : y = cur
      · subst hy
        have hw : isWordChar y = false := hcond y rfl rfl
        rw [collapseAux_cons_self, collapseAux_nil, collapseRuns_cons]
        rw [show emitRun y k = List.replicate k y from by simp [emitRun, hw]]
        have h1 := collapseAux_nonword_split y hw ys k 1
        rw [← h1]
      · rw [collapseAux_cons_ne cur y k ys hy, collapseAux_nil, collapseRuns_cons]
  | cons x xs ih =>
    intro cur k hcond
    have hcond' : ∀ y, b.head? = some y → y = effLast x xs →
        isWordChar y = false := by
      intro y h1 h2
      exact hcond y h1 (by rw [effLast_cons]; exact h2)
    by_cases hx : x = cur
    · subst hx
      rw [List.cons_append, collapseAux_cons_self, collapseAux_cons_self]
      exact ih x (k + 1) hcond'
    · rw [List.cons_append, collapseAux_cons_ne cur x k _ hx,
        collapseAux_cons_ne cur x k xs hx]
      rw [ih x 1 hcond', List.append_assoc]

/-- `collapseRuns` distributes over an append whose boundary cannot merge a
word-character run. -/
theorem collapseRuns_append (a b : Str)
    (h : ∀ y, b.head? = some y → a.getLast? = some y → isWordChar y = false) :
    collapseRuns (a ++ b) = collapseRuns a ++ collapseRuns b := by
  cases a with
  | nil => rfl
  | cons x xs =>
    rw [List.cons_append, collapseRuns_cons, collapseRuns_cons]
    refine collapseAux_append b xs x 1 ?_
    intro y hy hyeff
    refine h y hy ?_
    rw [getLast?_cons_eq_effLast x xs, hyeff]

/-- Claim C9, amended: reinsertion first turns newlines into `<br />` and
then collapses every maximal run of four-or-more repeated identical *word*
characters (letters, digits, underscore) to exactly four; maximal runs of
non-word characters are left unchanged; in particular `"helllllo"` becomes
`"hellllo"`. -/
theorem C9_collapse_amended (a b : Str) (c : Char) (k : Nat)
    (hw : isWordChar c = true) (hk : 4 ≤ k)
    (ha : a.getLast? ≠ some c) (hb : b.head? ≠ some c) :
    collapseRuns (a ++ (List.replicate k c ++ b))
      = collapseRuns a ++ (List.replicate 4 c ++ collapseRuns b)
    ∧ (∀ (d : Char) (m : Nat), isWordChar d = false →
        collapseRuns (List.replicate m d) = List.replicate m d)
    ∧ polish_translation (str "helllllo") = str "hellllo" := by
  refine ⟨?_, ?_, by decide⟩
  · have hsplit : collapseRuns (a ++ (List.replicate k c ++ b))
        = collapseRuns a ++ collapseRuns (List.replicate k c ++ b) := by
      refine collapseRuns_append a _ ?_
      intro y hy hlast
      obtain ⟨k', hk'⟩ : ∃ k', k = k' + 1 := ⟨k - 1, by omega⟩
      subst hk'
      simp only [List.replicate_succ, List.cons_append, List.head?_cons,
        Option.some.injEq] at hy
      subst hy
      exact absurd hlast ha
    rw [hsplit]
    obtain ⟨k', hk'⟩ : ∃ k', k = k' + 1 := ⟨k - 1, by omega⟩
    subst hk'
    rw [List.replicate_succ, List.cons_append, collapseRuns_cons]
    rw [collapseAux_run c k' 1 b (fun y hy hyc => hb (hyc ▸ hy))]
    congr 2
    rw [emitRun]
    rw [if_pos (by simp [hw]; omega)]
  · intro d m hw'
    cases m with
    | zero => rfl
    | succ m =>
      rw [List.replicate_succ, collapseRuns_cons]
      have h2 := collapseAux_run d m 1 [] (by intro y hy; simp at hy)
      rw [List.append_nil, collapseRuns_nil, List.append_nil] at h2
      rw [h2, emitRun, if_neg (by simp [hw'])]
      rw [show (1 : Nat) + m = m + 1 from by omega, List.replicate_succ]

/-- Witness for C9 at a concrete input: the run of five `l` in context. -/
theorem C9_collapse_amended_witness :
    (isWordChar 'l' = true ∧ 4 ≤ 5
      ∧ (str "he").getLast? ≠ some 'l' ∧ (str "o").head? ≠ some 'l')
    ∧ collapseRuns (str "he" ++ (List.replicate 5 'l' ++ str "o"))
        = collapseRuns (str "he")
          ++ (List.replicate 4 'l' ++ collapseRuns (str "o")) := by
  refine ⟨⟨by decide, by decide, by decide, by decide⟩, ?_⟩
  exact (C9_collapse_amended (str "he") (str "o") 'l' 5 (by decide) (by decide)
    (by decide) (by decide)).1

/-!  ## Placeholder codec (`get_content` / `add_translation`)

The embedding domain for the codec claims is a flat paragraph: an `XN`
whose element children are leaves.  On that domain the source's
descendant searches (`.//*`) coincide with searches over the direct
children. -/

/-- Modelled from the spec: calibre's `prepare_string_for_xml` lives outside
`src/`; spec §4.1 says the translation is escaped "for safe embedding" —
ampersand and angle brackets become entities. -/
def xml_escape_char (c : Char) : Str :=
  if c = '&' then str "&amp;"
  else if c = '<' then str "&lt;"
  else if c = '>' then str "&gt;"
  else [c]

def xml_escape (s : Str) : Str := (s.map xml_escape_char).flatten

/-- Decimal digits, structurally recursive on a fuel that the wrapper
instantiates large enough (`n` itself). -/
def natToDigitsAux : Nat → Nat → Str
  | 0, n => [Nat.digitChar n]
  | fuel + 1, n =>
    if n < 10 then [Nat.digitChar n]
    else natToDigitsAux fuel (n / 10) ++ [Nat.digitChar (n % 10)]

/-- Decimal digits of a natural number, most significant first. -/
def natToDigits (n : Nat) : Str := natToDigitsAux n n

/-- Python `format(count, '05')`: the decimal digits left-padded with zeros
to width 5. -/
def pad5 (n : Nat) : Str :=
  List.replicate (5 - (natToDigits n).length) '0' ++ natToDigits n

/-- Modelled from the spec: the placeholder templates are configured on the
external engine classes, not under `src/`; spec §4.5 describes a
placeholder as built "from a zero-padded 5-digit index and a configured
open-pattern template".  The open template is modelled as
`\x7b\x7bid_<index>\x7d\x7d` (braces written as character escapes). -/
def placeholder_open (i : Nat) : Str :=
  ['\x7b', '\x7b', 'i', 'd', '_'] ++ pad5 i ++ ['\x7d', '\x7d']

mutual
/-- Structural equality of nodes (lxml object identity is modelled by value
equality; see `encStep` for why this is faithful here). -/
def xnEq : XN → XN → Bool
  | .mk t1 a1 x1 c1 l1, .mk t2 a2 x2 c2 l2 =>
    t1 == t2 && a1 == a2 && x1 == x2 && xnEqList c1 c2 && l1 == l2

def xnEqList : List XN → List XN → Bool
  | [], [] => true
  | c :: cs, d :: ds => xnEq c d && xnEqList cs ds
  | _, _ => false
end

mutual
theorem xnEq_refl : ∀ n : XN, xnEq n n = true
  | .mk t a x c l => by
    rw [xnEq]
    simp [xnEqList_refl c]

theorem xnEqList_refl : ∀ cs : List XN, xnEqList cs cs = true
  | [] => rfl
  | c :: cs => by
    rw [xnEqList]
    simp [xnEq_refl c, xnEqList_refl cs]
end

mutual
/-- `etree.tostring(element, with_tail=False)` on the model: the node's own
serialization; children are serialized with their tails inside the parent.
(`get_string` first sets `element.text = element.text or ''`, a no-op here,
and strips namespace declarations, which the model does not carry.) -/
def serializeXN : XN → Str
  | .mk tag attrs text children _ =>
    str "<" ++ str tag
      ++ (attrs.map (fun a => str " " ++ str a.1 ++ str "=\"" ++ a.2
          ++ str "\"")).flatten
      ++ str ">" ++ text ++ serializeChildren children
      ++ str "</" ++ str tag ++ str ">"

def serializeChildren : List XN → Str
  | [] => []
  | c :: cs => serializeXN c ++ c.tail ++ serializeChildren cs
end

/-- `get_string` (src/lib/element.py lines 12–16): serialize without the
tail and trim. -/
def get_string (n : XN) : Str := pyStrip (serializeXN n)

mutual
/-- lxml `''.join(element.itertext())`. -/
def itertextXN : XN → Str
  | .mk _ _ text children _ => text ++ itertextChildren children

def itertextChildren : List XN → Str
  | [] => []
  | c :: cs => itertextXN c ++ c.tail ++ itertextChildren cs
end

/-- The ruby/annotation decoration tags removed by `get_content`
(src/lib/element.py line 193). -/
def noiseTags : List String := ["rt", "rp", "sup", "sub"]

/-- The reserved inline tags searched by `get_content`
(src/lib/element.py line 199). -/
def reservedTags : List String := ["img", "code", "br", "hr", "sub", "sup", "kbd"]

/-- The noise-removal loop of `get_content` (src/lib/element.py lines
192–196), restricted to direct children of a flat paragraph: each matching
child's tail is appended to the parent's text (note: to the *text*, i.e.
before all remaining children — the source's behavior) and the child is
removed. -/
def removeNoise (p : XN) : XN :=
  XN.mk p.tag p.attrs
    (p.text
      ++ ((p.children.filter (fun c => noiseTags.contains c.tag)).map
          XN.tail).flatten)
    (p.children.filter (fun c => !noiseTags.contains c.tag))
    p.tail

/-- `self.reserve_elements` as collected by `get_content` on the
noise-stripped copy. -/
def page_reserves (p : XN) : List XN :=
  (removeNoise p).children.filter (fun c => reservedTags.contains c.tag)

/-- Replacement of one reserved node that is not the first remaining child:
walk to the first remaining occurrence and append `tok ++ tail` to the
preceding sibling's tail (`previous.tail = (previous.tail or '') +
replacement + (reserve.tail or '')`, src/lib/element.py lines 204–206). -/
def placeLater (tok : Str) (r : XN) : XN → List XN → List XN
  | prev, [] => [prev]
  | prev, c :: cs =>
    if xnEq c r then
      XN.mk prev.tag prev.attrs prev.text prev.children
        (prev.tail ++ tok ++ r.tail) :: cs
    else prev :: placeLater tok r c cs

/-- State of the reserve-substitution loop of `get_content`
(src/lib/element.py lines 200–212): the parent's text, the remaining
children, and the placeholder counter. -/
structure EncState where
  text : Str
  children : List XN
  count : Nat

/-- One iteration of the substitution loop: if the reserved node is the
first remaining child (`getprevious()` is `None`) its placeholder and tail
go onto the parent's text, otherwise onto the preceding sibling's tail; the
node is removed and the counter incremented.  Earlier reserves are removed
in document order before later ones, so matching the first remaining child
equal to `r` identifies exactly the node the source operates on. -/
def encStep (st : EncState) (r : XN) : EncState :=
  let tok := placeholder_open st.count
  match st.children with
  | [] => { st with count := st.count + 1 }
  | c :: cs =>
    if xnEq c r then
      { text := st.text ++ tok ++ r.tail, children := cs,
        count := st.count + 1 }
    else
      { st with children := placeLater tok r c cs, count := st.count + 1 }

/-- The substitution loop of `get_content` run over the collected
reserves. -/
def encodeReserves (p : XN) : EncState :=
  (p.children.filter (fun c => reservedTags.contains c.tag)).foldl encStep
    ⟨p.text, p.children, 0⟩

/-- `PageElement.get_content` (src/lib/element.py lines 190–214) on a flat
paragraph: strip the noise tags, substitute placeholders for the reserved
nodes, and return the trimmed concatenated text. -/
def page_get_content (p : XN) : Str :=
  pyStrip ((encodeReserves (removeNoise p)).text
    ++ itertextChildren (encodeReserves (removeNoise p)).children)

/-- The placeholder-decoding prefix of `PageElement.add_translation`
(src/lib/element.py lines 234–243): escape the translation, then for each
reserved node in order replace its placeholder by the serialized node (the
replacement is a function, so backslashes in the markup are not
interpreted), then polish.  The matching pattern
`placeholder[1].format(r'\s*'.join(format(rid, '05')))` tolerates stray
whitespace inside the token; on an unmodified copy of the translatable
text it matches exactly the literal token, which is how it is modelled. -/
def decode_translation (reserves : List XN) (translation : Str) : Str :=
  polish_translation
    ((reserves.enum).foldl
      (fun acc pr =>
        replaceAll (xml_escape (placeholder_open pr.1)) (get_string pr.2) acc)
      (xml_escape translation))

def subNode : XN := XN.mk "sub" [] (str "2") [] (str " after")

def pSub : XN := XN.mk "p" [] (str "x") [subNode] []

/-- Claim C3 counterexample: a paragraph containing one `sub` node — a tag
in the claim's reserved list.  `get_content` removes `sub`/`sup` as ruby
noise *before* collecting reserved nodes, so the node receives no
placeholder, is absent from `reserve_elements`, and decoding an unmodified
copy of the content reproduces no markup for it. -/
theorem C3_subsup_counterexample :
    page_reserves pSub = []
    ∧ page_get_content pSub = str "x after"
    ∧ decode_translation (page_reserves pSub) (page_get_content pSub)
        = str "x after" := by
  refine ⟨rfl, rfl, ?_⟩
  decide

/-!  ### Arithmetic facts about the zero-padded decimal index -/

theorem digitChar_isDigit (d : Nat) (hd : d < 10) :
    (Nat.digitChar d).isDigit = true := by
  interval_cases d <;> decide

theorem digitChar_toNat (d : Nat) (hd : d < 10) :
    (Nat.digitChar d).toNat = 48 + d := by
  interval_cases d <;> decide

theorem natToDigitsAux_digits :
    ∀ (fuel n : Nat), n ≤ fuel → ∀ c ∈ natToDigitsAux fuel n, c.isDigit = true := by
  intro fuel
  induction fuel with
  | zero =>
    intro n hn c hc
    have hn0 : n = 0 := by omega
    subst hn0
    simp only [natToDigitsAux, List.mem_singleton] at hc
    subst hc
    decide
  | succ fuel ih =>
    intro n hn c hc
    rw [natToDigitsAux] at hc
    by_cases h10 : n < 10
    · rw [if_pos h10] at hc
      simp only [List.mem_singleton] at hc
      subst hc
      exact digitChar_isDigit n h10
    · rw [if_neg h10] at hc
      rcases List.mem_append.mp hc with hc | hc
      · exact ih (n / 10) (by omega) c hc
      · simp only [List.mem_singleton] at hc
        subst hc
        exact digitChar_isDigit _ (by omega)

theorem natToDigits_digits (n : Nat) :
    ∀ c ∈ natToDigits n, c.isDigit = true :=
  natToDigitsAux_digits n n (le_refl n)

theorem pad5_digits (n : Nat) : ∀ c ∈ pad5 n, c.isDigit = true := by
  intro c hc
  rcases List.mem_append.mp hc with hc | hc
  · rw [List.eq_of_mem_replicate hc]
    decide
  · exact natToDigits_digits n c hc

/-- Decimal evaluation of a digit string. -/
def digitsVal (ds : Str) : Nat :=
  ds.foldl (fun a c => 10 * a + (c.toNat - 48)) 0

theorem natToDigitsAux_val :
    ∀ (fuel n : Nat), n ≤ fuel → digitsVal (natToDigitsAux fuel n) = n := by
  intro fuel
  induction fuel with
  | zero =>
    intro n hn
    have hn0 : n = 0 := by omega
    subst hn0
    decide
  | succ fuel ih =>
    intro n hn
    rw [natToDigitsAux]
    by_cases h10 : n < 10
    · rw [if_pos h10]
      show 10 * 0 + ((Nat.digitChar n).toNat - 48) = n
      rw [digitChar_toNat n h10]
      omega
    · rw [if_neg h10]
      rw [digitsVal, List.foldl_append, ← digitsVal]
      rw [ih (n / 10) (by omega)]
      show 10 * (n / 10) + ((Nat.digitChar (n % 10)).toNat - 48) = n
      rw [digitChar_toNat _ (by omega)]
      omega

theorem digitsVal_zeros_append (j : Nat) (ds : Str) :
    digitsVal (List.replicate j '0' ++ ds) = digitsVal ds := by
  induction j with
  | zero => rfl
  | succ j ih =>
    rw [List.replicate_succ, List.cons_append, digitsVal, List.foldl_cons]
    show List.foldl _ (10 * 0 + ('0'.toNat - 48)) _ = _
    rw [show 10 * 0 + ('0'.toNat - 48) = 0 from by decide]
    exact ih

theorem pad5_val (n : Nat) : digitsVal (pad5 n) = n := by
  rw [pad5, digitsVal_zeros_append]
  exact natToDigitsAux_val n n (le_refl n)

theorem pad5_inj {m n : Nat} (h : pad5 m = pad5 n) : m = n := by
  have := congrArg digitsVal h
  rwa [pad5_val, pad5_val] at this

theorem natToDigitsAux_length_le :
    ∀ (fuel k n : Nat), n ≤ fuel → n < 10 ^ k → 1 ≤ k →
      (natToDigitsAux fuel n).length ≤ k := by
  intro fuel
  induction fuel with
  | zero =>
    intro k n hn _ hk
    have hn0 : n = 0 := by omega
    subst hn0
    simpa [natToDigitsAux] using hk
  | succ fuel ih =>
    intro k n hn hnk hk
    rw [natToDigitsAux]
    by_cases h10 : n < 10
    · rw [if_pos h10]
      simpa using hk
    · rw [if_neg h10]
      have hk2 : 2 ≤ k := by
        by_contra hlt
        have hk1 : k = 1 := by omega
        subst hk1
        simp at hnk
        omega
      rw [List.length_append, List.length_singleton]
      have hdiv : n / 10 < 10 ^ (k - 1) := by
        have h1 : 10 ^ k = 10 ^ (k - 1) * 10 := by
          rw [← pow_succ]
          congr 1
          omega
        rw [h1] at hnk
        omega
      have := ih (k - 1) (n / 10) (by omega) hdiv (by omega)
      omega

theorem pad5_length (n : Nat) (hn : n < 100000) : (pad5 n).length = 5 := by
  have h5 : (natToDigits n).length ≤ 5 := by
    have : (100000 : Nat) = 10 ^ 5 := by norm_num
    exact natToDigitsAux_length_le n 5 n (le_refl n) (by omega) (by omega)
  rw [pad5, List.length_append, List.length_replicate]
  omega

theorem placeholder_open_length (i : Nat) (hi : i < 100000) :
    (placeholder_open i).length = 12 := by
  rw [placeholder_open]
  simp only [List.length_append, List.length_cons, List.length_nil]
  rw [pad5_length i hi]

theorem placeholder_open_inj {i j : Nat}
    (h : placeholder_open i = placeholder_open j) : i = j := by
  rw [placeholder_open, placeholder_open, List.append_assoc,
    List.append_assoc] at h
  have h2 : pad5 i ++ ['\x7d', '\x7d'] = pad5 j ++ ['\x7d', '\x7d'] :=
    List.append_inj_right h rfl
  have h3 : pad5 i = pad5 j := List.append_inj_left' h2 rfl
  exact pad5_inj h3

/-- Every character after the first two of an open placeholder differs from
the open brace. -/
theorem placeholder_rest_no_brace (i : Nat) :
    ∀ c ∈ ('i' :: 'd' :: '_' :: (pad5 i ++ ['\x7d', '\x7d'])), c ≠ '\x7b' := by
  intro c hc he
  subst he
  simp only [List.mem_cons, List.mem_append] at hc
  rcases hc with h | h | h | h | h
  · exact absurd h (by decide)
  · exact absurd h (by decide)
  · exact absurd h (by decide)
  · exact absurd (pad5_digits i _ h) (by decide)
  · exact absurd h (by decide)

theorem placeholder_cons (i : Nat) :
    placeholder_open i
      = '\x7b' :: ('\x7b' :: ('i' :: 'd' :: '_' :: (pad5 i ++ ['\x7d', '\x7d']))) := rfl

theorem placeholder_head (i : Nat) :
    (placeholder_open i).head? = some '\x7b' := rfl

theorem getLast?_append_right (a : Str) :
    ∀ b : Str, b ≠ [] → (a ++ b).getLast? = b.getLast? := by
  induction a with
  | nil =>
    intro b _
    rfl
  | cons x a ih =>
    intro b hb
    rw [List.cons_append]
    have hne : a ++ b ≠ [] := by
      intro h
      exact hb (List.append_eq_nil.mp h).2
    cases hab : a ++ b with
    | nil => exact absurd hab hne
    | cons y ys =>
      rw [List.getLast?_cons_cons, ← hab, ih b hb]

theorem placeholder_getLast (i : Nat) :
    (placeholder_open i).getLast? = some '\x7d' := by
  rw [placeholder_open, List.append_assoc,
    getLast?_append_right _ _ (by simp)]
  rw [getLast?_append_right _ _ (by simp)]
  rfl

/-!  ### `xml_escape` facts -/

theorem xml_escape_append (a b : Str) :
    xml_escape (a ++ b) = xml_escape a ++ xml_escape b := by
  rw [xml_escape, xml_escape, xml_escape, List.map_append, List.flatten_append]

theorem xml_escape_cons (c : Char) (s : Str) :
    xml_escape (c :: s) = xml_escape_char c ++ xml_escape s := rfl

theorem xml_escape_fixed (s : Str)
    (h : ∀ c ∈ s, c ≠ '&' ∧ c ≠ '<' ∧ c ≠ '>') : xml_escape s = s := by
  induction s with
  | nil => rfl
  | cons c cs ih =>
    rw [xml_escape_cons, ih (fun x hx => h x (List.mem_cons_of_mem c hx))]
    obtain ⟨h1, h2, h3⟩ := h c (List.mem_cons_self c cs)
    rw [xml_escape_char, if_neg h1, if_neg h2, if_neg h3]
    rfl

theorem mem_placeholder_open (i : Nat) (c : Char)
    (hc : c ∈ placeholder_open i) :
    c ∈ (['\x7b', '\x7b', 'i', 'd', '_', '\x7d', '\x7d'] : Str)
      ∨ c.isDigit = true := by
  rw [placeholder_open] at hc
  simp only [List.mem_append, List.mem_cons] at hc ⊢
  rcases hc with (hc | hc) | hc
  · tauto
  · exact Or.inr (pad5_digits i c hc)
  · tauto

theorem placeholder_no_specials (i : Nat) :
    ∀ c ∈ placeholder_open i, c ≠ '&' ∧ c ≠ '<' ∧ c ≠ '>' := by
  intro c hc
  rcases mem_placeholder_open i c hc with h | h
  · refine ⟨?_, ?_, ?_⟩ <;> intro he <;> subst he <;> exact absurd h (by decide)
  · refine ⟨?_, ?_, ?_⟩ <;> intro he <;> subst he <;> exact absurd h (by decide)

theorem xml_escape_placeholder (i : Nat) :
    xml_escape (placeholder_open i) = placeholder_open i :=
  xml_escape_fixed _ (placeholder_no_specials i)

theorem xml_escape_no_brace (s : Str) (h : '\x7b' ∉ s) :
    '\x7b' ∉ xml_escape s := by
  induction s with
  | nil => simp [xml_escape]
  | cons c cs ih =>
    rw [xml_escape_cons]
    intro hmem
    rcases List.mem_append.mp hmem with hmem | hmem
    · rw [xml_escape_char] at hmem
      by_cases h1 : c = '&'
      · rw [if_pos h1] at hmem
        exact absurd hmem (by decide)
      · rw [if_neg h1] at hmem
        by_cases h2 : c = '<'
        · rw [if_pos h2] at hmem
          exact absurd hmem (by decide)
        · rw [if_neg h2] at hmem
          by_cases h3 : c = '>'
          · rw [if_pos h3] at hmem
            exact absurd hmem (by decide)
          · rw [if_neg h3] at hmem
            simp only [List.mem_singleton] at hmem
            subst hmem
            exact h (List.mem_cons_self _ _)
    · exact ih (fun hx => h (List.mem_cons_of_mem c hx)) hmem

/-!  ### Occurrence analysis for the decode loop -/

/-- `pat` occurs nowhere in `s` (at no start position). -/
def SafeScan (pat s : Str) : Prop :=
  ∀ n : Nat, pat.isPrefixOf (s.drop n) = false

theorem safeScan_nil (p : Char) (pr : Str) : SafeScan (p :: pr) [] := by
  intro n
  rw [List.drop_nil]
  rfl

theorem safeScan_cons (pat : Str) (c : Char) (rest : Str)
    (h0 : pat.isPrefixOf (c :: rest) = false) (h1 : SafeScan pat rest) :
    SafeScan pat (c :: rest) := by
  intro n
  cases n with
  | zero => exact h0
  | succ n => exact h1 n

theorem safeScan_of_cons (pat : Str) (c : Char) (rest : Str)
    (h : SafeScan pat (c :: rest)) : SafeScan pat rest := by
  intro n
  exact h (n + 1)

theorem isPrefixOf_cons_ne (p : Char) (pr : Str) (x : Char) (l : Str)
    (h : x ≠ p) : (p :: pr).isPrefixOf (x :: l) = false := by
  show (p == x && pr.isPrefixOf l) = false
  have hpx : (p == x) = false := by
    simp only [beq_eq_false_iff_ne]
    exact fun he => h he.symm
  rw [hpx, Bool.false_and]

theorem safeScan_append_nohead (p : Char) (pr : Str) (Y : Str)
    (hY : SafeScan (p :: pr) Y) :
    ∀ X : Str, (∀ c ∈ X, c ≠ p) → SafeScan (p :: pr) (X ++ Y) := by
  intro X
  induction X with
  | nil =>
    intro _
    simpa using hY
  | cons x xs ih =>
    intro hX
    rw [List.cons_append]
    refine safeScan_cons _ _ _ ?_ (ih fun c hc => hX c (List.mem_cons_of_mem x hc))
    exact isPrefixOf_cons_ne p pr x _ (hX x (List.mem_cons_self x xs))

theorem safeScan_all_ne (p : Char) (pr : Str) (s : Str)
    (h : ∀ c ∈ s, c ≠ p) : SafeScan (p :: pr) s := by
  have h2 := safeScan_append_nohead p pr [] (safeScan_nil p pr) s h
  simpa using h2

theorem isPrefixOf_append_eq_length (pat q Y : Str)
    (hlen : pat.length = q.length)
    (h : pat.isPrefixOf (q ++ Y) = true) : pat = q := by
  have hpre : pat <+: q ++ Y := List.isPrefixOf_iff_prefix.mp h
  have htake := List.prefix_iff_eq_take.mp hpre
  rw [hlen, List.take_left] at htake
  exact htake

/-- A distinct open placeholder cannot begin anywhere inside another open
placeholder (or at its start), so the scan for token `i` passes over token
`j` untouched. -/
theorem safeScan_token (i j : Nat) (hij : i ≠ j)
    (hi : i < 100000) (hj : j < 100000) (Y : Str)
    (hY : SafeScan (placeholder_open i) Y) :
    SafeScan (placeholder_open i) (placeholder_open j ++ Y) := by
  rw [placeholder_cons j, List.cons_append, List.cons_append]
  refine safeScan_cons _ _ _ ?_ ?_
  · rw [← List.cons_append, ← List.cons_append, ← placeholder_cons j]
    by_cases hp : (placeholder_open i).isPrefixOf (placeholder_open j ++ Y) = true
    · have heq := isPrefixOf_append_eq_length _ _ _
        (by rw [placeholder_open_length i hi, placeholder_open_length j hj]) hp
      exact absurd (placeholder_open_inj heq) hij
    · rw [Bool.not_eq_true] at hp
      exact hp
  · refine safeScan_cons _ _ _ ?_ ?_
    · rw [placeholder_cons i]
      show (('\x7b' == '\x7b')
        && (('\x7b' :: 'i' :: 'd' :: '_' :: (pad5 i ++ ['\x7d', '\x7d'])).isPrefixOf
            (('i' :: 'd' :: '_' :: (pad5 j ++ ['\x7d', '\x7d'])) ++ Y))) = false
      rw [List.cons_append]
      rw [isPrefixOf_cons_ne '\x7b' _ 'i' _ (by decide)]
      rw [Bool.and_false]
    · rw [placeholder_cons i]
      exact safeScan_append_nohead '\x7b' _ Y hY _ (placeholder_rest_no_brace j)

/-!  ### `splitCore` / `replaceAll` under controlled occurrences -/

theorem splitCore_skip (pat : Str) :
    ∀ (B Z : Str), splitCore pat (B ++ Z) B.length = splitCore pat Z 0 := by
  intro B
  induction B with
  | nil =>
    intro Z
    rfl
  | cons b B ih =>
    intro Z
    rw [List.cons_append, List.length_cons, splitCore]
    exact ih Z

theorem nil_isPrefixOf (l : Str) : ([] : Str).isPrefixOf l = true := by
  cases l <;> rfl

theorem isPrefixOf_self_append (l : Str) :
    ∀ Z : Str, l.isPrefixOf (l ++ Z) = true := by
  induction l with
  | nil =>
    intro Z
    exact nil_isPrefixOf Z
  | cons x xs ih =>
    intro Z
    rw [List.cons_append]
    show (x == x && xs.isPrefixOf (xs ++ Z)) = true
    rw [ih Z, beq_self_eq_true, Bool.and_self]

theorem splitCore_match (p : Char) (pr Z : Str) :
    splitCore (p :: pr) ((p :: pr) ++ Z) 0 = [] :: splitCore (p :: pr) Z 0 := by
  rw [List.cons_append, splitCore]
  rw [if_pos ?hc]
  case hc =>
    rw [← List.cons_append, isPrefixOf_self_append]
    rfl
  congr 1
  rw [show (p :: pr).length - 1 = pr.length from by simp]
  exact splitCore_skip (p :: pr) pr Z

theorem splitCore_nohead (p : Char) (pr : Str) :
    ∀ (A Z : Str), (∀ c ∈ A, c ≠ p) →
      ∀ h t, splitCore (p :: pr) Z 0 = h :: t →
      splitCore (p :: pr) (A ++ Z) 0 = (A ++ h) :: t := by
  intro A
  induction A with
  | nil =>
    intro Z _ h t hz
    simpa using hz
  | cons x A ih =>
    intro Z hA h t hz
    rw [List.cons_append, splitCore]
    rw [if_neg ?hc]
    case hc =>
      rw [isPrefixOf_cons_ne p pr x _ (hA x (List.mem_cons_self x A))]
      simp
    rw [ih Z (fun c hc => hA c (List.mem_cons_of_mem x hc)) h t hz]
    rfl

theorem splitCore_safe (p : Char) (pr : Str) :
    ∀ Z : Str, SafeScan (p :: pr) Z → splitCore (p :: pr) Z 0 = [Z] := by
  intro Z
  induction Z with
  | nil =>
    intro _
    rfl
  | cons c rest ih =>
    intro hs
    rw [splitCore]
    rw [if_neg ?hc]
    case hc =>
      have h0 := hs 0
      rw [List.drop_zero] at h0
      rw [h0]
      simp
    rw [ih (safeScan_of_cons _ _ _ hs)]

theorem joinSep_pair (rep A B : Str) :
    joinSep rep [A, B] = A ++ (rep ++ B) := by
  rw [joinSep, joinSep, List.append_assoc]

/-- The central decode step: with no stray open brace before the token and
no occurrence of the token after it, `re.sub` replaces exactly the one
occurrence. -/
theorem replaceAll_split (p : Char) (pr rep A B : Str)
    (hA : ∀ c ∈ A, c ≠ p) (hB : SafeScan (p :: pr) B) :
    replaceAll (p :: pr) rep (A ++ ((p :: pr) ++ B)) = A ++ (rep ++ B) := by
  rw [replaceAll, splitOnL]
  rw [splitCore_nohead p pr A ((p :: pr) ++ B) hA [] (splitCore (p :: pr) B 0)
    (splitCore_match p pr B)]
  rw [splitCore_safe p pr B hB, List.append_nil]
  exact joinSep_pair rep A B

theorem replaceAll_id_of_safe (p : Char) (pr rep s : Str)
    (hs : SafeScan (p :: pr) s) : replaceAll (p :: pr) rep s = s := by
  rw [replaceAll, splitOnL, splitCore_safe p pr s hs]
  rfl

theorem replaceAll_id_of_ne (p : Char) (pr rep s : Str)
    (hs : ∀ c ∈ s, c ≠ p) : replaceAll (p :: pr) rep s = s :=
  replaceAll_id_of_safe p pr rep s (safeScan_all_ne p pr s hs)

theorem joinSep_cons_head (rep : Str) (x : Char) (h : Str) (t : List Str) :
    joinSep rep ((x :: h) :: t) = x :: joinSep rep (h :: t) := by
  cases t with
  | nil => rw [joinSep, joinSep]
  | cons y t =>
    rw [joinSep, joinSep, List.cons_append, List.cons_append]

/-- Single-character `re.sub` on a cons cell. -/
theorem replaceAll_single_cons (c : Char) (rep : Str) (x : Char) (s : Str) :
    replaceAll [c] rep (x :: s)
      = if x = c then rep ++ replaceAll [c] rep s
        else x :: replaceAll [c] rep s := by
  rcases hsp : splitCore [c] s 0 with _ | ⟨h, t⟩
  · exact absurd hsp (splitCore_ne_nil [c] s 0)
  by_cases hx : x = c
  · subst hx
    rw [if_pos rfl, replaceAll, replaceAll, splitOnL, splitOnL, splitCore]
    rw [if_pos ?hcond]
    case hcond =>
      show (List.isPrefixOf [x] (x :: s) && true) = true
      rw [Bool.and_true, show (x :: s) = [x] ++ s from rfl,
        isPrefixOf_self_append]
    rw [show ([x] : Str).length - 1 = 0 from rfl]
    rw [hsp, joinSep, List.nil_append]
  · rw [if_neg hx, replaceAll, replaceAll, splitOnL, splitOnL, splitCore]
    rw [if_neg ?hcond]
    case hcond =>
      rw [isPrefixOf_cons_ne c [] x s hx]
      simp
    rw [hsp]
    exact joinSep_cons_head rep x h t

/-- Single-character `re.sub` distributes over concatenation. -/
theorem replaceAll_single_append (c : Char) (rep : Str) :
    ∀ a b : Str,
      replaceAll [c] rep (a ++ b)
        = replaceAll [c] rep a ++ replaceAll [c] rep b := by
  intro a
  induction a with
  | nil =>
    intro b
    rw [List.nil_append,
      show replaceAll [c] rep [] = [] from rfl, List.nil_append]
  | cons x a ih =>
    intro b
    rw [List.cons_append, replaceAll_single_cons, replaceAll_single_cons]
    by_cases hx : x = c
    · rw [if_pos hx, if_pos hx, ih b, List.append_assoc]
    · rw [if_neg hx, if_neg hx, ih b]
      rfl

/-!  ### Serialization facts -/

theorem serializeXN_head (n : XN) : (serializeXN n).head? = some '<' := by
  cases n with
  | mk tag attrs text children tl => rfl

theorem serializeXN_getLast (n : XN) :
    (serializeXN n).getLast? = some '>' := by
  cases n with
  | mk tag attrs text children tl =>
    rw [serializeXN]
    rw [getLast?_append_right _ _ (by decide)]
    rfl

theorem pyStrip_eq_self (s : Str)
    (h1 : ∀ c, s.head? = some c → c.isWhitespace = false)
    (h2 : ∀ c, s.getLast? = some c → c.isWhitespace = false) :
    pyStrip s = s := by
  rw [pyStrip]
  have hd : s.dropWhile Char.isWhitespace = s := by
    cases s with
    | nil => rfl
    | cons c rest =>
      rw [List.dropWhile_cons, if_neg (by rw [h1 c rfl]; simp)]
  rw [hd]
  have hr : s.reverse.dropWhile Char.isWhitespace = s.reverse := by
    cases hrev : s.reverse with
    | nil => rfl
    | cons c rest =>
      have hc : s.getLast? = some c := by
        rw [← List.head?_reverse, hrev]
        rfl
      rw [List.dropWhile_cons, if_neg (by rw [h2 c hc]; simp)]
  rw [hr, List.reverse_reverse]

theorem get_string_eq (n : XN) : get_string n = serializeXN n := by
  rw [get_string]
  refine pyStrip_eq_self _ ?_ ?_
  · intro c hc
    rw [serializeXN_head n] at hc
    cases hc
    decide
  · intro c hc
    rw [serializeXN_getLast n] at hc
    cases hc
    decide

theorem get_string_head (n : XN) : (get_string n).head? = some '<' := by
  rw [get_string_eq]
  exact serializeXN_head n

theorem get_string_getLast (n : XN) : (get_string n).getLast? = some '>' := by
  rw [get_string_eq]
  exact serializeXN_getLast n

/-!  ### `dropWhile` / `pyStrip` decomposition -/

theorem dropWhile_append_of_head (p : Char → Bool) :
    ∀ (a b : Str), (∀ c, b.head? = some c → p c = false) →
      (a ++ b).dropWhile p = a.dropWhile p ++ b := by
  intro a
  induction a with
  | nil =>
    intro b hb
    rw [List.nil_append, List.dropWhile_nil, List.nil_append]
    cases b with
    | nil => rfl
    | cons c rest =>
      rw [List.dropWhile_cons, if_neg (by rw [hb c rfl]; simp)]
  | cons x a ih =>
    intro b hb
    rw [List.cons_append, List.dropWhile_cons, List.dropWhile_cons]
    by_cases hx : p x
    · rw [if_pos hx, if_pos hx]
      exact ih b hb
    · rw [if_neg hx, if_neg hx, List.cons_append]

theorem mem_of_mem_dropWhile (p : Char → Bool) (l : Str) (c : Char)
    (hc : c ∈ l.dropWhile p) : c ∈ l :=
  (List.dropWhile_sublist p).subset hc

/-- Right strip (the second half of `pyStrip`). -/
def rstr (s : Str) : Str := (s.reverse.dropWhile Char.isWhitespace).reverse

theorem mem_of_mem_rstr (s : Str) (c : Char) (hc : c ∈ rstr s) : c ∈ s := by
  rw [rstr, List.mem_reverse] at hc
  exact List.mem_reverse.mp (mem_of_mem_dropWhile _ _ _ hc)

/-!  ### The token/gap interleavings -/

/-- Sequential placeholders, each followed by its gap. -/
def interTok (i : Nat) : List Str → Str
  | [] => []
  | g :: gs => placeholder_open i ++ (g ++ interTok (i + 1) gs)

/-- Markup/gap interleaving produced by the decode loop. -/
def mixMG : List Str → List Str → Str
  | [], _ => []
  | _ :: _, [] => []
  | m :: ms, g :: gs => m ++ (g ++ mixMG ms gs)

/-- `k+1` gap strings interleaved with `k` markup strings. -/
def interleave : List Str → List Str → Str
  | [], _ => []
  | g :: _, [] => g
  | g :: gs, m :: ms => g ++ (m ++ interleave gs ms)

theorem interleave_cons_mix (ms : List Str) :
    ∀ (gs : List Str) (g : Str), gs.length = ms.length →
      interleave (g :: gs) ms = g ++ mixMG ms gs := by
  induction ms with
  | nil =>
    intro gs g h
    have : gs = [] := List.eq_nil_of_length_eq_zero h
    subst this
    rw [interleave, mixMG, List.append_nil]
  | cons m ms ih =>
    intro gs g h
    cases gs with
    | nil => simp at h
    | cons g' gs' =>
      rw [interleave, mixMG, ih gs' g' (by simpa using h)]

theorem interTok_append (i : Nat) :
    ∀ gs hs : List Str,
      interTok i (gs ++ hs) = interTok i gs ++ interTok (i + gs.length) hs := by
  intro gs
  induction gs generalizing i with
  | nil =>
    intro hs
    rw [List.nil_append, interTok, List.nil_append, List.length_nil, Nat.add_zero]
  | cons g gs ih =>
    intro hs
    rw [List.cons_append, interTok, interTok, ih (i + 1) hs]
    rw [List.length_cons, show i + 1 + gs.length = i + (gs.length + 1) from by omega]
    simp [List.append_assoc]

theorem interTok_head (i : Nat) (g : Str) (gs : List Str) :
    (interTok i (g :: gs)).head? = some '\x7b' := by
  rw [interTok, placeholder_cons, List.cons_append]
  rfl

theorem xml_escape_interTok (gs : List Str) :
    ∀ i : Nat, xml_escape (interTok i gs) = interTok i (gs.map xml_escape) := by
  induction gs with
  | nil =>
    intro i
    rfl
  | cons g gs ih =>
    intro i
    rw [interTok, List.map_cons, interTok, xml_escape_append, xml_escape_append,
      xml_escape_placeholder, ih (i + 1)]

/-!  ### The encode loop on a fully reserved flat paragraph -/

theorem encStep_head (t : Str) (c : XN) (cs : List XN) (i : Nat) :
    encStep ⟨t, c :: cs, i⟩ c
      = ⟨t ++ placeholder_open i ++ c.tail, cs, i + 1⟩ := by
  show (if xnEq c c then
      (⟨t ++ placeholder_open i ++ c.tail, cs, i + 1⟩ : EncState)
    else ⟨t, placeLater (placeholder_open i) c c cs, i + 1⟩) = _
  rw [if_pos (xnEq_refl c)]

theorem encodeFold_all_head :
    ∀ (cs : List XN) (t : Str) (i : Nat),
      cs.foldl encStep ⟨t, cs, i⟩
        = ⟨t ++ interTok i (cs.map XN.tail), [], i + cs.length⟩ := by
  intro cs
  induction cs with
  | nil =>
    intro t i
    rw [List.foldl_nil, List.map_nil, interTok, List.append_nil,
      List.length_nil, Nat.add_zero]
  | cons c cs ih =>
    intro t i
    rw [List.foldl_cons, encStep_head, ih (t ++ placeholder_open i ++ c.tail) (i + 1)]
    rw [List.map_cons, interTok, List.length_cons]
    have h1 : t ++ placeholder_open i ++ c.tail ++ interTok (i + 1) (cs.map XN.tail)
        = t ++ (placeholder_open i ++ (c.tail ++ interTok (i + 1) (cs.map XN.tail))) := by
      simp [List.append_assoc]
    have h2 : i + 1 + cs.length = i + (cs.length + 1) := by omega
    rw [h1, h2]

theorem filter_reserved_of_restricted (cs : List XN)
    (hres : ∀ c ∈ cs, c.tag ∈ ["img", "code", "br", "hr", "kbd"]) :
    cs.filter (fun c => reservedTags.contains c.tag) = cs := by
  rw [List.filter_eq_self]
  intro c hc
  have h := hres c hc
  simp only [List.mem_cons] at h
  rcases h with h | h | h | h | h | h <;> first | (rw [h]; decide) | simp at h

theorem filter_noise_nil_of_restricted (cs : List XN)
    (hres : ∀ c ∈ cs, c.tag ∈ ["img", "code", "br", "hr", "kbd"]) :
    cs.filter (fun c => noiseTags.contains c.tag) = [] := by
  rw [List.filter_eq_nil_iff]
  intro c hc
  have h := hres c hc
  simp only [List.mem_cons] at h
  rcases h with h | h | h | h | h | h <;> first | (rw [h]; decide) | simp at h

theorem filter_not_noise_of_restricted (cs : List XN)
    (hres : ∀ c ∈ cs, c.tag ∈ ["img", "code", "br", "hr", "kbd"]) :
    cs.filter (fun c => !noiseTags.contains c.tag) = cs := by
  rw [List.filter_eq_self]
  intro c hc
  have h := hres c hc
  simp only [List.mem_cons] at h
  rcases h with h | h | h | h | h | h <;> first | (rw [h]; decide) | simp at h

theorem removeNoise_of_restricted (tag : String) (attrs : List (String × Str))
    (t0 : Str) (cs : List XN) (tl : Str)
    (hres : ∀ c ∈ cs, c.tag ∈ ["img", "code", "br", "hr", "kbd"]) :
    removeNoise (XN.mk tag attrs t0 cs tl) = XN.mk tag attrs t0 cs tl := by
  rw [removeNoise]
  rw [show (XN.mk tag attrs t0 cs tl).children = cs from rfl,
    show (XN.mk tag attrs t0 cs tl).text = t0 from rfl,
    show (XN.mk tag attrs t0 cs tl).tag = tag from rfl,
    show (XN.mk tag attrs t0 cs tl).attrs = attrs from rfl,
    show (XN.mk tag attrs t0 cs tl).tail = tl from rfl]
  rw [filter_noise_nil_of_restricted cs hres,
    filter_not_noise_of_restricted cs hres]
  rw [List.map_nil, List.flatten_nil, List.append_nil]

theorem page_reserves_of_restricted (tag : String) (attrs : List (String × Str))
    (t0 : Str) (cs : List XN) (tl : Str)
    (hres : ∀ c ∈ cs, c.tag ∈ ["img", "code", "br", "hr", "kbd"]) :
    page_reserves (XN.mk tag attrs t0 cs tl) = cs := by
  rw [page_reserves, removeNoise_of_restricted tag attrs t0 cs tl hres]
  exact filter_reserved_of_restricted cs hres

theorem page_get_content_shape (tag : String) (attrs : List (String × Str))
    (t0 : Str) (cs : List XN) (tl : Str)
    (hres : ∀ c ∈ cs, c.tag ∈ ["img", "code", "br", "hr", "kbd"]) :
    page_get_content (XN.mk tag attrs t0 cs tl)
      = pyStrip (t0 ++ interTok 0 (cs.map XN.tail)) := by
  rw [page_get_content, removeNoise_of_restricted tag attrs t0 cs tl hres]
  rw [encodeReserves]
  rw [show (XN.mk tag attrs t0 cs tl).children = cs from rfl,
    show (XN.mk tag attrs t0 cs tl).text = t0 from rfl]
  rw [filter_reserved_of_restricted cs hres]
  rw [encodeFold_all_head cs t0 0]
  rw [show itertextChildren [] = [] from rfl, List.append_nil]

/-- Trimming the concatenated text strips whitespace only at the very
front of the leading text and the very end of the final tail. -/
theorem pyStrip_interTok (t0 : Str) (gs : List Str) (g : Str) :
    pyStrip (t0 ++ interTok 0 (gs ++ [g]))
      = t0.dropWhile Char.isWhitespace ++ interTok 0 (gs ++ [rstr g]) := by
  have hhead : ∀ c, (interTok 0 (gs ++ [g])).head? = some c →
      c.isWhitespace = false := by
    intro c hc
    cases gs with
    | nil =>
      rw [List.nil_append, interTok_head] at hc
      cases hc
      decide
    | cons g' gs' =>
      rw [List.cons_append, interTok_head] at hc
      cases hc
      decide
  rw [pyStrip, dropWhile_append_of_head _ t0 _ hhead]
  rw [interTok_append 0 gs [g]]
  rw [show interTok (0 + gs.length) [g]
    = placeholder_open gs.length ++ (g ++ []) from by
      rw [interTok, interTok, Nat.zero_add]]
  rw [List.append_nil]
  have hassoc : t0.dropWhile Char.isWhitespace
      ++ (interTok 0 gs ++ (placeholder_open gs.length ++ g))
      = (t0.dropWhile Char.isWhitespace
          ++ (interTok 0 gs ++ placeholder_open gs.length)) ++ g := by
    simp [List.append_assoc]
  rw [hassoc]
  set A := t0.dropWhile Char.isWhitespace
    ++ (interTok 0 gs ++ placeholder_open gs.length) with hA
  have hAlast : A.reverse.head? = some '\x7d' := by
    rw [List.head?_reverse, hA]
    rw [getLast?_append_right _ _ ?hne]
    case hne =>
      intro hnil
      have h2 := congrArg List.length hnil
      rw [List.length_append, placeholder_open] at h2
      simp at h2
    rw [getLast?_append_right _ _ ?hne2]
    case hne2 =>
      intro hnil
      have h2 := congrArg List.length hnil
      rw [placeholder_open] at h2
      simp at h2
    exact placeholder_getLast gs.length
  rw [List.reverse_append]
  rw [dropWhile_append_of_head _ g.reverse A.reverse
    (by
      intro c hc
      rw [hAlast] at hc
      cases hc
      decide)]
  rw [List.reverse_append, List.reverse_reverse, ← rstr]
  rw [interTok_append 0 gs [rstr g]]
  rw [show interTok (0 + gs.length) [rstr g]
    = placeholder_open gs.length ++ (rstr g ++ []) from by
      rw [interTok, interTok, Nat.zero_add]]
  rw [List.append_nil, hA]
  simp [List.append_assoc]

/-!  ### The decode loop on the encoded content -/

theorem safeScan_interTok (i : Nat) (hi : i < 100000) :
    ∀ (gs : List Str) (j : Nat), i < j → j + gs.length ≤ 100000 →
      (∀ g ∈ gs, ∀ c ∈ g, c ≠ '\x7b') →
      SafeScan (placeholder_open i) (interTok j gs) := by
  intro gs
  induction gs with
  | nil =>
    intro j _ _ _
    rw [interTok, placeholder_cons]
    exact safeScan_nil _ _
  | cons g gs ih =>
    intro j hij hlen hbr
    rw [interTok]
    have htail : SafeScan (placeholder_open i) (interTok (j + 1) gs) := by
      refine ih (j + 1) (by omega) ?_ ?_
      · rw [List.length_cons] at hlen
        omega
      · intro g' hg' c hc
        exact hbr g' (List.mem_cons_of_mem g hg') c hc
    have hgap : SafeScan (placeholder_open i) (g ++ interTok (j + 1) gs) := by
      rw [placeholder_cons] at htail ⊢
      exact safeScan_append_nohead _ _ _ htail g
        (hbr g (List.mem_cons_self g gs))
    have hj : j < 100000 := by
      rw [List.length_cons] at hlen
      omega
    exact safeScan_token i j (by omega) hi hj _ hgap

/-- One step of the decode fold of `PageElement.add_translation`
(src/lib/element.py lines 239–243). -/
def decodeStep (acc : Str) (pr : Nat × XN) : Str :=
  replaceAll (xml_escape (placeholder_open pr.1)) (get_string pr.2) acc

theorem decode_translation_eq (reserves : List XN) (t : Str) :
    decode_translation reserves t
      = polish_translation
          ((List.enumFrom 0 reserves).foldl decodeStep (xml_escape t)) := rfl

/-- The decode fold replaces each placeholder, in index order, by the
serialized reserved node, provided no stray open brace occurs elsewhere. -/
theorem decodeFold :
    ∀ (rs : List XN) (gs : List Str) (i : Nat) (D : Str),
      gs.length = rs.length →
      i + rs.length ≤ 100000 →
      (∀ c ∈ D, c ≠ '\x7b') →
      (∀ g ∈ gs, ∀ c ∈ g, c ≠ '\x7b') →
      (∀ r ∈ rs, ∀ c ∈ get_string r, c ≠ '\x7b') →
      (List.enumFrom i rs).foldl decodeStep (D ++ interTok i gs)
        = D ++ mixMG (rs.map get_string) gs := by
  intro rs
  induction rs with
  | nil =>
    intro gs i D hlen _ _ _ _
    have hg : gs = [] := List.eq_nil_of_length_eq_zero hlen
    subst hg
    rw [show List.enumFrom i ([] : List XN) = [] from rfl, List.foldl_nil,
      interTok, List.map_nil, mixMG]
  | cons r rs ih =>
    intro gs i D hlen hbound hD hgs hms
    cases gs with
    | nil => simp at hlen
    | cons g gs' =>
      rw [show List.enumFrom i (r :: rs)
        = (i, r) :: List.enumFrom (i + 1) rs from rfl, List.foldl_cons]
      have hi : i < 100000 := by
        rw [List.length_cons] at hbound
        omega
      have hsafe : SafeScan (placeholder_open i) (g ++ interTok (i + 1) gs') := by
        have htail : SafeScan (placeholder_open i) (interTok (i + 1) gs') := by
          refine safeScan_interTok i hi gs' (i + 1) (by omega) ?_ ?_
          · rw [List.length_cons] at hbound
            have hlen2 : gs'.length = rs.length := by simpa using hlen
            omega
          · intro g' hg' c hc
            exact hgs g' (List.mem_cons_of_mem g hg') c hc
        rw [placeholder_cons] at htail ⊢
        exact safeScan_append_nohead _ _ _ htail g
          (hgs g (List.mem_cons_self g gs'))
      have hstep : decodeStep (D ++ interTok i (g :: gs')) (i, r)
          = (D ++ (get_string r ++ g)) ++ interTok (i + 1) gs' := by
        show replaceAll (xml_escape (placeholder_open i)) (get_string r)
          (D ++ interTok i (g :: gs'))
          = (D ++ (get_string r ++ g)) ++ interTok (i + 1) gs'
        rw [xml_escape_placeholder i, interTok, placeholder_cons i]
        rw [replaceAll_split '\x7b'
          ('\x7b' :: ('i' :: 'd' :: '_' :: (pad5 i ++ ['\x7d', '\x7d'])))
          (get_string r) D (g ++ interTok (i + 1) gs') hD hsafe]
        simp [List.append_assoc]
      rw [hstep]
      rw [ih gs' (i + 1) (D ++ (get_string r ++ g))
        (by simpa using hlen)
        (by rw [List.length_cons] at hbound; omega)
        ?hD2 ?hgs2 ?hms2]
      case hD2 =>
        intro c hc
        simp only [List.mem_append] at hc
        rcases hc with hc | hc | hc
        · exact hD c hc
        · exact hms r (List.mem_cons_self r rs) c hc
        · exact hgs g (List.mem_cons_self g gs') c hc
      case hgs2 =>
        intro g' hg' c hc
        exact hgs g' (List.mem_cons_of_mem g hg') c hc
      case hms2 =>
        intro r' hr' c hc
        exact hms r' (List.mem_cons_of_mem r hr') c hc
      rw [List.map_cons, mixMG]
      simp [List.append_assoc]

/-!  ### Distributing the polish step over the decoded interleaving -/

theorem str_nl : str "\n" = ['\n'] := rfl

/-- The newline replacement half of `_polish_translation`. -/
def brRep (s : Str) : Str := replaceAll (str "\n") (str "<br />") s

theorem polish_eq_brRep (s : Str) :
    polish_translation s = collapseRuns (brRep s) := rfl

theorem brRep_append (a b : Str) : brRep (a ++ b) = brRep a ++ brRep b := by
  rw [brRep, brRep, brRep, str_nl]
  exact replaceAll_single_append '\n' (str "<br />") a b

theorem brRep_fixed (s : Str) (h : '\n' ∉ s) : brRep s = s := by
  rw [brRep, str_nl]
  exact replaceAll_id_of_ne '\n' [] _ s (fun c hc he => h (he ▸ hc))

theorem brRep_mix : ∀ (ms gs : List Str), ms.length = gs.length →
    (∀ m ∈ ms, '\n' ∉ m) →
    brRep (mixMG ms gs) = mixMG ms (gs.map brRep) := by
  intro ms
  induction ms with
  | nil =>
    intro gs _ _
    rw [mixMG, mixMG]
    rfl
  | cons m ms ih =>
    intro gs h hm
    cases gs with
    | nil => simp at h
    | cons g gs' =>
      rw [List.map_cons, mixMG, mixMG, brRep_append, brRep_append]
      rw [brRep_fixed m (hm m (List.mem_cons_self m ms))]
      rw [ih gs' (by simpa using h)
        (fun x hx => hm x (List.mem_cons_of_mem m hx))]

theorem head?_append_of_head (a b : Str) (c : Char) (h : a.head? = some c) :
    (a ++ b).head? = some c := by
  cases a with
  | nil => cases h
  | cons x xs =>
    rw [List.cons_append]
    exact h

theorem collapse_mix : ∀ (ms gs : List Str) (X : Str), ms.length = gs.length →
    (∀ m ∈ ms, m.head? = some '<' ∧ m.getLast? = some '>'
      ∧ collapseRuns m = m) →
    collapseRuns (X ++ mixMG ms gs)
      = collapseRuns X ++ mixMG ms (gs.map collapseRuns) := by
  intro ms
  induction ms with
  | nil =>
    intro gs X _ _
    rw [mixMG, mixMG, List.append_nil, List.append_nil]
  | cons m ms ih =>
    intro gs X h hm
    cases gs with
    | nil => simp at h
    | cons g gs' =>
      obtain ⟨hh, hl, hc⟩ := hm m (List.mem_cons_self m ms)
      rw [List.map_cons, mixMG, mixMG]
      have h1 : collapseRuns (X ++ (m ++ (g ++ mixMG ms gs')))
          = collapseRuns X ++ collapseRuns (m ++ (g ++ mixMG ms gs')) := by
        refine collapseRuns_append X _ ?_
        intro y hy _
        rw [head?_append_of_head m _ '<' hh] at hy
        cases hy
        decide
      have h2 : collapseRuns (m ++ (g ++ mixMG ms gs'))
          = collapseRuns m ++ collapseRuns (g ++ mixMG ms gs') := by
        refine collapseRuns_append m _ ?_
        intro y _ hy2
        rw [hl] at hy2
        cases hy2
        decide
      rw [h1, h2, hc, ih gs' g (by simpa using h)
        (fun x hx => hm x (List.mem_cons_of_mem m hx))]

/-- Claim C3, amended: on a flat paragraph all of whose children carry one
of the tags `img`, `code`, `br`, `hr`, `kbd` — the effective reserved set,
since `sub`/`sup` are stripped as ruby noise before reservation — with at
most 99999 children, no open brace in the leading text or the tails, and
each child's serialized markup free of open braces, newlines and
collapsible word-character runs: `get_content` reserves exactly the
children in document order, the content is the trimmed text interleaved
with the sequential zero-padded placeholders, and decoding an unmodified
copy of that content reproduces each child's serialized markup, in order,
interleaved with the escaped-and-polished text gaps. -/
theorem C3_placeholder_roundtrip (tag : String) (attrs : List (String × Str))
    (t0 : Str) (cs : List XN) (tl : Str)
    (hres : ∀ c ∈ cs, c.tag ∈ ["img", "code", "br", "hr", "kbd"])
    (hk : cs.length ≤ 99999)
    (hb0 : '\x7b' ∉ t0)
    (hbt : ∀ c ∈ cs, '\x7b' ∉ c.tail)
    (hm : ∀ c ∈ cs, '\x7b' ∉ get_string c ∧ '\n' ∉ get_string c
      ∧ collapseRuns (get_string c) = get_string c) :
    page_reserves (XN.mk tag attrs t0 cs tl) = cs
    ∧ (∃ g0 gs, gs.length = cs.length
        ∧ page_get_content (XN.mk tag attrs t0 cs tl) = g0 ++ interTok 0 gs)
    ∧ (∃ gaps, gaps.length = cs.length + 1
        ∧ decode_translation (page_reserves (XN.mk tag attrs t0 cs tl))
            (page_get_content (XN.mk tag attrs t0 cs tl))
          = interleave gaps (cs.map get_string)) := by
  have hr : page_reserves (XN.mk tag attrs t0 cs tl) = cs :=
    page_reserves_of_restricted tag attrs t0 cs tl hres
  have hcont := page_get_content_shape tag attrs t0 cs tl hres
  rcases List.eq_nil_or_concat cs with hnil | ⟨cs', clast, hcs⟩
  · subst hnil
    refine ⟨hr, ⟨pyStrip t0, [], rfl, ?_⟩, ?_⟩
    · rw [hcont]
      simp only [List.map_nil, interTok, List.append_nil]
    · refine ⟨[polish_translation
        (xml_escape (page_get_content (XN.mk tag attrs t0 [] tl)))],
        rfl, ?_⟩
      rw [hr, decode_translation_eq]
      rw [show List.enumFrom 0 ([] : List XN) = [] from rfl, List.foldl_nil]
      rw [List.map_nil, interleave]
  · rw [List.concat_eq_append] at hcs
    subst hcs
    rw [List.map_append, List.map_cons, List.map_nil] at hcont
    rw [pyStrip_interTok t0 (cs'.map XN.tail) clast.tail] at hcont
    have hbg0 : '\x7b' ∉ t0.dropWhile Char.isWhitespace :=
      fun hc => hb0 (mem_of_mem_dropWhile _ _ _ hc)
    have hbgs : ∀ g ∈ cs'.map XN.tail ++ [rstr clast.tail], '\x7b' ∉ g := by
      intro g hg
      simp only [List.mem_append, List.mem_map, List.mem_singleton] at hg
      rcases hg with ⟨c, hc, hgc⟩ | hg
      · rw [← hgc]
        exact hbt c (List.mem_append_left _ hc)
      · subst hg
        intro hc
        exact hbt clast (List.mem_append_right _ (List.mem_singleton_self _))
          (mem_of_mem_rstr _ _ hc)
    have hmain :
        decode_translation (page_reserves (XN.mk tag attrs t0 (cs' ++ [clast]) tl))
          (page_get_content (XN.mk tag attrs t0 (cs' ++ [clast]) tl))
        = interleave
            (collapseRuns (brRep (xml_escape (t0.dropWhile Char.isWhitespace)))
              :: (((cs'.map XN.tail ++ [rstr clast.tail]).map
                    xml_escape).map brRep).map collapseRuns)
            ((cs' ++ [clast]).map get_string) := by
      rw [hr, hcont, decode_translation_eq]
      rw [xml_escape_append, xml_escape_interTok]
      rw [decodeFold (cs' ++ [clast]) ((cs'.map XN.tail ++ [rstr clast.tail]).map
          xml_escape) 0 (xml_escape (t0.dropWhile Char.isWhitespace))
        ?len ?bound ?hD ?hgaps ?hmarks]
      case len => simp
      case bound => omega
      case hD =>
        intro c hc he
        subst he
        exact xml_escape_no_brace _ hbg0 hc
      case hgaps =>
        intro g hg c hc he
        subst he
        obtain ⟨g', hg', rfl⟩ := List.mem_map.mp hg
        exact xml_escape_no_brace g' (hbgs g' hg') hc
      case hmarks =>
        intro r hrr c hc he
        subst he
        exact (hm r hrr).1 hc
      rw [polish_eq_brRep, brRep_append]
      rw [brRep_mix ((cs' ++ [clast]).map get_string)
        ((cs'.map XN.tail ++ [rstr clast.tail]).map xml_escape)
        (by simp) ?hnl]
      case hnl =>
        intro m hmm2
        obtain ⟨r, hrr, rfl⟩ := List.mem_map.mp hmm2
        exact (hm r hrr).2.1
      rw [collapse_mix ((cs' ++ [clast]).map get_string)
        (((cs'.map XN.tail ++ [rstr clast.tail]).map xml_escape).map brRep)
        (brRep (xml_escape (t0.dropWhile Char.isWhitespace)))
        (by simp) ?hprops]
      case hprops =>
        intro m hmm2
        obtain ⟨r, hrr, rfl⟩ := List.mem_map.mp hmm2
        exact ⟨get_string_head r, get_string_getLast r, (hm r hrr).2.2⟩
      rw [interleave_cons_mix ((cs' ++ [clast]).map get_string)
        ((((cs'.map XN.tail ++ [rstr clast.tail]).map xml_escape).map
            brRep).map collapseRuns)
        (collapseRuns (brRep (xml_escape (t0.dropWhile Char.isWhitespace))))
        (by simp)]
    refine ⟨hr, ⟨t0.dropWhile Char.isWhitespace,
      cs'.map XN.tail ++ [rstr clast.tail], by simp, hcont⟩,
      ⟨collapseRuns (brRep (xml_escape (t0.dropWhile Char.isWhitespace)))
        :: (((cs'.map XN.tail ++ [rstr clast.tail]).map
              xml_escape).map brRep).map collapseRuns,
        by simp, hmain⟩⟩

def imgWit : XN := XN.mk "img" [("src", str "cover.jpg")] [] [] (str " mid")

def brWit : XN := XN.mk "br" [] [] [] (str " end")

theorem C3_placeholder_roundtrip_witness :
    ((∀ c ∈ [imgWit, brWit], c.tag ∈ ["img", "code", "br", "hr", "kbd"])
      ∧ ([imgWit, brWit] : List XN).length ≤ 99999
      ∧ '\x7b' ∉ str "Photo: "
      ∧ (∀ c ∈ [imgWit, brWit], '\x7b' ∉ c.tail)
      ∧ (∀ c ∈ [imgWit, brWit], '\x7b' ∉ get_string c ∧ '\n' ∉ get_string c
          ∧ collapseRuns (get_string c) = get_string c))
    ∧ (page_reserves (XN.mk "p" [] (str "Photo: ") [imgWit, brWit] [])
        = [imgWit, brWit]
      ∧ (∃ g0 gs, gs.length = ([imgWit, brWit] : List XN).length
          ∧ page_get_content (XN.mk "p" [] (str "Photo: ") [imgWit, brWit] [])
            = g0 ++ interTok 0 gs)
      ∧ (∃ gaps, gaps.length = ([imgWit, brWit] : List XN).length + 1
          ∧ decode_translation
              (page_reserves (XN.mk "p" [] (str "Photo: ") [imgWit, brWit] []))
              (page_get_content (XN.mk "p" [] (str "Photo: ") [imgWit, brWit] []))
            = interleave gaps (([imgWit, brWit] : List XN).map get_string))) :=
  ⟨by decide,
    C3_placeholder_roundtrip "p" [] (str "Photo: ") [imgWit, brWit] []
      (by decide) (by decide) (by decide) (by decide) (by decide)⟩

end EbookTranslator
